import Mathlib

/-!
Verification of the i18nator catalog synchronization tool (src/main.go).

The development shallowly embeds the program:
* a `Catalog` is a Go `map[string]string`, represented as an association
  list with unique keys (`NodupKeys`);
* the persisted storage is a `Store`, a finite map from file path to file
  content (a `String`), with absent paths standing for unreadable or
  missing files;
* `marshalFlat` / `unmarshalFlat` embed `json.MarshalIndent(m, "", "  ")`
  and `json.Unmarshal` restricted to flat string-to-string objects, at the
  level of character sequences (Go's `encoding/json` serializes map keys
  in ascending byte order, which for valid UTF-8 equals code-point order);
* `processAddOrUpdate`, `runAdd`, `runList`, `runUpdate`, `runRemove` and
  `execCLI` embed the command handlers and the `main` dispatch;
* the translation provider is an oracle `Config.tr`, and the response
  parsing of `googleTranslate` is embedded over decoded JSON values
  (`JValue`) as `extractTranslation`.
-/

/-! ## Catalogs: Go `map[string]string` as association lists -/

abbrev Catalog := List (String × String)

/-- Go map read `data[key]`. -/
def lookupKey (k : String) : Catalog → Option String
  | [] => none
  | (k2, v) :: rest => if k2 = k then some v else lookupKey k rest

/-- Go `delete(data, key)`: drop every binding of `k` (at most one under
`NodupKeys`). -/
def eraseKey (k : String) : Catalog → Catalog
  | [] => []
  | p :: rest => if p.1 = k then eraseKey k rest else p :: eraseKey k rest

/-- Go map write `data[key] = value` (overwrites an existing binding). -/
def insertKey (k v : String) (c : Catalog) : Catalog :=
  eraseKey k c ++ [(k, v)]

def keysOf (c : Catalog) : List String := c.map Prod.fst

/-- The representation invariant of a Go map: keys are unique. -/
def NodupKeys (c : Catalog) : Prop := (keysOf c).Nodup

instance (c : Catalog) : Decidable (NodupKeys c) :=
  inferInstanceAs (Decidable (keysOf c).Nodup)

theorem lookupKey_eq_none (k : String) (c : Catalog) (h : k ∉ keysOf c) :
    lookupKey k c = none := by
  induction c with
  | nil => rfl
  | cons p rest ih =>
    simp [keysOf] at h
    simp [lookupKey, ih, h.1, h.2, keysOf]
    intro he
    exact absurd he.symm h.1

theorem lookupKey_eraseKey_self (k : String) (c : Catalog) :
    lookupKey k (eraseKey k c) = none := by
  induction c with
  | nil => rfl
  | cons p rest ih =>
    by_cases h : p.1 = k
    · simpa [eraseKey, h] using ih
    · simpa [eraseKey, lookupKey, h] using ih

theorem lookupKey_eraseKey_ne (k k' : String) (c : Catalog) (h : k' ≠ k) :
    lookupKey k' (eraseKey k c) = lookupKey k' c := by
  induction c with
  | nil => rfl
  | cons p rest ih =>
    by_cases hp : p.1 = k
    · rw [show eraseKey k (p :: rest) = eraseKey k rest from by simp [eraseKey, hp]]
      rw [ih, lookupKey]
      have : ¬ p.1 = k' := fun he => h (by rw [← he, hp])
      simp [this]
    · rw [show eraseKey k (p :: rest) = p :: eraseKey k rest from by simp [eraseKey, hp]]
      by_cases hk : p.1 = k'
      · simp [lookupKey, hk]
      · simp [lookupKey, hk, ih]

theorem lookupKey_append (k : String) (a b : Catalog) :
    lookupKey k (a ++ b) =
      (match lookupKey k a with
       | some v => some v
       | none => lookupKey k b) := by
  induction a with
  | nil => simp [lookupKey]
  | cons p rest ih =>
    by_cases hp : p.1 = k
    · simp [lookupKey, hp]
    · simpa [lookupKey, hp] using ih

theorem lookupKey_insertKey_self (k v : String) (c : Catalog) :
    lookupKey k (insertKey k v c) = some v := by
  simp [insertKey, lookupKey_append, lookupKey_eraseKey_self, lookupKey]

theorem lookupKey_insertKey_ne (k v k' : String) (c : Catalog) (h : k' ≠ k) :
    lookupKey k' (insertKey k v c) = lookupKey k' c := by
  simp [insertKey, lookupKey_append, lookupKey_eraseKey_ne k k' c h]
  cases hl : lookupKey k' (eraseKey k c) with
  | some v2 => simp [← lookupKey_eraseKey_ne k k' c h, hl]
  | none =>
    simp [lookupKey, h, ← lookupKey_eraseKey_ne k k' c h, hl]
    intro he
    exact absurd he.symm h

theorem keysOf_eraseKey_sublist (k : String) (c : Catalog) :
    keysOf (eraseKey k c) |>.Sublist (keysOf c) := by
  induction c with
  | nil => simp [keysOf, eraseKey]
  | cons p rest ih =>
    by_cases hp : p.1 = k
    · rw [show eraseKey k (p :: rest) = eraseKey k rest from by simp [eraseKey, hp]]
      exact ih.trans (by simp [keysOf])
    · rw [show eraseKey k (p :: rest) = p :: eraseKey k rest from by simp [eraseKey, hp]]
      simpa [keysOf] using ih.cons₂ p.1

theorem mem_keysOf_eraseKey (k a : String) (c : Catalog) :
    a ∈ keysOf (eraseKey k c) ↔ a ∈ keysOf c ∧ a ≠ k := by
  induction c with
  | nil => simp [keysOf, eraseKey]
  | cons p rest ih =>
    by_cases hp : p.1 = k
    · rw [show eraseKey k (p :: rest) = eraseKey k rest from by simp [eraseKey, hp]]
      rw [ih]
      constructor
      · exact fun h => ⟨by simp [keysOf]; exact Or.inr (by simpa [keysOf] using h.1), h.2⟩
      · rintro ⟨h1, h2⟩
        refine ⟨?_, h2⟩
        simp [keysOf] at h1 ⊢
        rcases h1 with h1 | h1
        · exact absurd (h1 ▸ hp) h2
        · exact h1
    · rw [show eraseKey k (p :: rest) = p :: eraseKey k rest from by simp [eraseKey, hp]]
      simp only [keysOf, List.map_cons, List.mem_cons] at ih ⊢
      rw [ih]
      constructor
      · rintro (h | ⟨h1, h2⟩)
        · exact ⟨Or.inl h, h ▸ hp⟩
        · exact ⟨Or.inr h1, h2⟩
      · rintro ⟨h1 | h1, h2⟩
        · exact Or.inl h1
        · exact Or.inr ⟨h1, h2⟩

theorem nodupKeys_eraseKey (k : String) (c : Catalog) (h : NodupKeys c) :
    NodupKeys (eraseKey k c) :=
  (keysOf_eraseKey_sublist k c).nodup h

theorem nodupKeys_insertKey (k v : String) (c : Catalog) (h : NodupKeys c) :
    NodupKeys (insertKey k v c) := by
  have he := nodupKeys_eraseKey k c h
  rw [NodupKeys, insertKey, show keysOf (eraseKey k c ++ [(k, v)]) =
    keysOf (eraseKey k c) ++ [k] from by simp [keysOf]]
  refine List.Nodup.append he (by simp) ?_
  intro a ha hb
  simp at hb
  exact ((mem_keysOf_eraseKey k a c).1 ha).2 hb

theorem mem_keysOf_insertKey (k v a : String) (c : Catalog) :
    a ∈ keysOf (insertKey k v c) ↔ a = k ∨ a ∈ keysOf c := by
  rw [insertKey, show keysOf (eraseKey k c ++ [(k, v)]) =
    keysOf (eraseKey k c) ++ [k] from by simp [keysOf]]
  rw [List.mem_append, mem_keysOf_eraseKey]
  constructor
  · rintro (⟨h1, _⟩ | h1)
    · exact Or.inr h1
    · exact Or.inl (by simpa using h1)
  · rintro (h | h)
    · exact Or.inr (by simpa using h)
    · by_cases hk : a = k
      · exact Or.inr (by simpa using hk)
      · exact Or.inl ⟨h, hk⟩

theorem lookupKey_isSome_iff_mem (k : String) (c : Catalog) :
    (lookupKey k c).isSome = true ↔ k ∈ keysOf c := by
  induction c with
  | nil => simp [lookupKey, keysOf]
  | cons p rest ih =>
    by_cases hp : p.1 = k
    · simp [lookupKey, keysOf, hp]
    · simp [lookupKey, keysOf, hp, ih]
      intro he
      exact absurd he.symm hp

/-! ## Key ordering and canonical sorting

`saveJSON` (src/main.go lines 252-274) collects the keys, sorts them with
`sort.Strings` and feeds the map to `json.MarshalIndent`, which itself
serializes Go map keys in ascending byte order; the net effect is a
document whose members are sorted by key.  Go string order is byte
order on UTF-8, which coincides with the code-point order used by
Lean's `LinearOrder String`. -/

def keyLE (p q : String × String) : Prop := p.1 ≤ q.1

instance : DecidableRel keyLE := fun p q => inferInstanceAs (Decidable (p.1 ≤ q.1))

instance : IsTotal (String × String) keyLE := ⟨fun a b => le_total a.1 b.1⟩

instance : IsTrans (String × String) keyLE := ⟨fun _ _ _ h1 h2 => le_trans h1 h2⟩

def sortCatalog (c : Catalog) : Catalog := List.insertionSort keyLE c

theorem sortCatalog_perm (c : Catalog) : List.Perm (sortCatalog c) c :=
  List.perm_insertionSort keyLE c

theorem sortCatalog_sorted (c : Catalog) : List.Sorted keyLE (sortCatalog c) :=
  List.sorted_insertionSort keyLE c

theorem nodupKeys_of_perm {c₁ c₂ : Catalog} (h : List.Perm c₁ c₂) (hn : NodupKeys c₁) :
    NodupKeys c₂ :=
  ((h.map Prod.fst).nodup_iff).1 hn

theorem nodupKeys_sortCatalog (c : Catalog) (h : NodupKeys c) :
    NodupKeys (sortCatalog c) :=
  nodupKeys_of_perm (sortCatalog_perm c).symm h

/-- With unique keys, `lookupKey` is invariant under permutation. -/
theorem lookupKey_perm {c₁ c₂ : Catalog} (h : List.Perm c₁ c₂) (hn : NodupKeys c₁)
    (k : String) : lookupKey k c₁ = lookupKey k c₂ := by
  induction h with
  | nil => rfl
  | cons p _ ih =>
    by_cases hp : p.1 = k
    · simp [lookupKey, hp]
    · simp only [lookupKey, hp, if_neg hp]
      exact ih (by simpa [NodupKeys, keysOf] using (List.nodup_cons.1 hn).2)
  | swap p q l =>
    have hqp : q.1 ≠ p.1 := by
      simp [NodupKeys, keysOf, List.nodup_cons] at hn
      exact fun he => hn.1.1 he
    by_cases hq : q.1 = k
    · have hp : ¬ p.1 = k := fun he => hqp (hq ▸ he ▸ rfl)
      simp [lookupKey, hq, hp]
    · by_cases hp : p.1 = k
      · simp [lookupKey, hq, hp]
      · simp [lookupKey, hq, hp]
  | trans h₁ h₂ ih₁ ih₂ =>
    exact (ih₁ hn).trans (ih₂ (nodupKeys_of_perm h₁ hn))

theorem lookupKey_sortCatalog (c : Catalog) (h : NodupKeys c) (k : String) :
    lookupKey k (sortCatalog c) = lookupKey k c :=
  lookupKey_perm (sortCatalog_perm c) (nodupKeys_sortCatalog c h) k

def keyLT (p q : String × String) : Prop := p.1 < q.1

/-- A sorted catalog with unique keys is strictly sorted by key. -/
theorem sorted_keyLT (c : Catalog) (hs : List.Sorted keyLE c) (hn : NodupKeys c) :
    List.Pairwise keyLT c := by
  have hne : List.Pairwise (fun p q : String × String => p.1 ≠ q.1) c := by
    have h' : List.Pairwise (fun a b : String => a ≠ b) (c.map Prod.fst) := hn
    exact List.pairwise_map.1 h'
  exact (hs.and hne).imp (fun h => lt_of_le_of_ne h.1 h.2)

/-- Two strictly key-sorted catalogs with the same lookup function are
syntactically equal: there is exactly one sorted document per mapping. -/
theorem eq_of_sorted_lookup_eq :
    ∀ (c₁ c₂ : Catalog), List.Pairwise keyLT c₁ → List.Pairwise keyLT c₂ →
      (∀ k, lookupKey k c₁ = lookupKey k c₂) → c₁ = c₂ := by
  intro c₁
  induction c₁ with
  | nil =>
    intro c₂ _ _ heq
    cases c₂ with
    | nil => rfl
    | cons q t =>
      have := heq q.1
      simp [lookupKey] at this
  | cons p t ih =>
    intro c₂ h₁ h₂ heq
    cases c₂ with
    | nil =>
      have := heq p.1
      simp [lookupKey] at this
    | cons q t₂ =>
      have hklt₁ : ∀ r ∈ t, p.1 < r.1 := fun r hr => (List.pairwise_cons.1 h₁).1 r hr
      have hklt₂ : ∀ r ∈ t₂, q.1 < r.1 := fun r hr => (List.pairwise_cons.1 h₂).1 r hr
      have hlook₁ : ∀ k, k < p.1 → lookupKey k t = none := by
        intro k hk
        refine lookupKey_eq_none k t ?_
        intro hmem
        rcases List.mem_map.1 hmem with ⟨r, hr, hre⟩
        exact absurd (hre ▸ hklt₁ r hr) (not_lt.2 (le_of_lt hk))
      have hlook₂ : ∀ k, k < q.1 → lookupKey k t₂ = none := by
        intro k hk
        refine lookupKey_eq_none k t₂ ?_
        intro hmem
        rcases List.mem_map.1 hmem with ⟨r, hr, hre⟩
        exact absurd (hre ▸ hklt₂ r hr) (not_lt.2 (le_of_lt hk))
      have hpq : p.1 = q.1 := by
        rcases lt_trichotomy p.1 q.1 with hlt | he | hgt
        · have := heq p.1
          simp [lookupKey, hlook₂ p.1 hlt, ne_of_gt hlt] at this
        · exact he
        · have := heq q.1
          simp [lookupKey, hlook₁ q.1 hgt, ne_of_gt hgt] at this
      have hnone₁ : lookupKey p.1 t = none := by
        refine lookupKey_eq_none _ _ ?_
        intro hmem
        rcases List.mem_map.1 hmem with ⟨r, hr, hre⟩
        exact absurd (hre ▸ hklt₁ r hr) (lt_irrefl _)
      have hnone₂ : lookupKey q.1 t₂ = none := by
        refine lookupKey_eq_none _ _ ?_
        intro hmem
        rcases List.mem_map.1 hmem with ⟨r, hr, hre⟩
        exact absurd (hre ▸ hklt₂ r hr) (lt_irrefl _)
      have hv : p.2 = q.2 := by
        have h := heq p.1
        rw [show lookupKey p.1 (p :: t) = some p.2 from by simp [lookupKey]] at h
        rw [show lookupKey p.1 (q :: t₂) = some q.2 from by simp [lookupKey, hpq.symm]] at h
        exact (Option.some.injEq _ _ ▸ h).symm ▸ rfl
      have htv : t = t₂ := by
        refine ih t₂ (List.pairwise_cons.1 h₁).2 (List.pairwise_cons.1 h₂).2 ?_
        intro k
        by_cases hk : k = p.1
        · subst hk
          rw [hnone₁, ← hpq] at *
          exact hnone₁.trans (by rw [hpq] at hnone₂ ⊢; exact hnone₂.symm)
        · have h := heq k
          have hp1 : ¬ p.1 = k := fun he => hk he.symm
          have hq1 : ¬ q.1 = k := fun he => hk (hpq ▸ he.symm)
          simpa [lookupKey, hp1, hq1] using h
      have hpe : p = q := Prod.ext hpq hv
      rw [hpe, htv]

/-! ## Serialization: `json.MarshalIndent(m, "", "  ")` for flat string maps

Character-level embedding of Go's `encoding/json` output for a
`map[string]string` (with the default HTML escaping).  A non-empty map
renders as an opening brace, a newline, one member per line indented by
two spaces with members separated by a comma and newline, then a newline
and the closing brace; the empty map renders as the two brace
characters. -/

def hexDigitChar (n : Nat) : Char :=
  if n < 10 then Char.ofNat (48 + n) else Char.ofNat (87 + n)

/-- Go `encodeState.string` escaping with `escapeHTML = true`. -/
def escChar (c : Char) : List Char :=
  if c = '"' then ['\\', '"']
  else if c = '\\' then ['\\', '\\']
  else if c = '\n' then ['\\', 'n']
  else if c = '\r' then ['\\', 'r']
  else if c = '\t' then ['\\', 't']
  else if c.toNat < 0x20 then
    ['\\', 'u', '0', '0', hexDigitChar (c.toNat / 16), hexDigitChar (c.toNat % 16)]
  else if c = '<' then ['\\', 'u', '0', '0', '3', 'c']
  else if c = '>' then ['\\', 'u', '0', '0', '3', 'e']
  else if c = '&' then ['\\', 'u', '0', '0', '2', '6']
  else if c = '\u2028' then ['\\', 'u', '2', '0', '2', '8']
  else if c = '\u2029' then ['\\', 'u', '2', '0', '2', '9']
  else [c]

def escList : List Char → List Char
  | [] => []
  | c :: rest => escChar c ++ escList rest

def quoteChars (s : String) : List Char :=
  '"' :: (escList s.data ++ ['"'])

def memberChars (p : String × String) : List Char :=
  quoteChars p.1 ++ ':' :: ' ' :: quoteChars p.2

def membersChars : Catalog → List Char
  | [] => []
  | p :: rest =>
    ' ' :: ' ' :: (memberChars p ++
      (match rest with
       | [] => []
       | _ :: _ => ',' :: '\n' :: membersChars rest))

def renderFlat (c : Catalog) : List Char :=
  match c with
  | [] => ['{', '}']
  | _ :: _ => '{' :: '\n' :: (membersChars c ++ ['\n', '}'])

/-- The serialization step of `saveJSON` (src/main.go lines 252-264): sort the
keys ascending and render with two-space indentation. -/
def marshalFlat (c : Catalog) : String :=
  ⟨renderFlat (sortCatalog c)⟩

/-! ## Parsing: `json.Unmarshal` into `map[string]string`

The decoder accepts optional JSON whitespace, the literal `null`
(which leaves the Go map `nil`; the caller converts it to an empty map),
or a flat object whose members are string keys and string values.  Any
other document — an array, a number, a bare string, nested values,
trailing garbage, malformed syntax — makes `json.Unmarshal` return an
error, modelled as `none`.  Duplicate keys follow Go semantics: the last
binding wins. -/

def isJsonWs (c : Char) : Bool :=
  c = ' ' || c = '\t' || c = '\n' || c = '\r'

def skipWs (s : List Char) : List Char := s.dropWhile isJsonWs

def hexVal (c : Char) : Option Nat :=
  if 48 ≤ c.toNat ∧ c.toNat ≤ 57 then some (c.toNat - 48)
  else if 97 ≤ c.toNat ∧ c.toNat ≤ 102 then some (c.toNat - 87)
  else if 65 ≤ c.toNat ∧ c.toNat ≤ 70 then some (c.toNat - 55)
  else none

def hex4 (a b c d : Char) : Option Nat :=
  match hexVal a, hexVal b, hexVal c, hexVal d with
  | some va, some vb, some vc, some vd => some (((va * 16 + vb) * 16 + vc) * 16 + vd)
  | _, _, _, _ => none

def consFst (c : Char) : Option (List Char × List Char) → Option (List Char × List Char)
  | none => none
  | some (s, r) => some (c :: s, r)

inductive StrTok where
  | done (rest : List Char)
  | ch (c : Char) (rest : List Char)
  | bad

/-- Decode one unit of a JSON string literal body: the closing quote, a
literal character, or one escape sequence.  Surrogate escape pairs are
combined; lone surrogates decode to U+FFFD, and raw control characters
are a syntax error, as in Go's decoder. -/
def nextStrTok : List Char → StrTok
  | [] => .bad
  | c :: rest =>
    if c = '"' then .done rest
    else if c = '\\' then
      match rest with
      | [] => .bad
      | e :: r =>
        if e = '"' then .ch '"' r
        else if e = '\\' then .ch '\\' r
        else if e = '/' then .ch '/' r
        else if e = 'b' then .ch (Char.ofNat 8) r
        else if e = 'f' then .ch (Char.ofNat 12) r
        else if e = 'n' then .ch '\n' r
        else if e = 'r' then .ch '\r' r
        else if e = 't' then .ch '\t' r
        else if e = 'u' then
          match r with
          | a :: b :: c2 :: d :: r2 =>
            match hex4 a b c2 d with
            | none => .bad
            | some n =>
              if n < 0xd800 ∨ 0xdfff < n then .ch (Char.ofNat n) r2
              else if 0xdc00 ≤ n then .ch (Char.ofNat 0xfffd) r2
              else
                match r2 with
                | e2 :: u2 :: a2 :: b2 :: c3 :: d2 :: r3 =>
                  if e2 = '\\' ∧ u2 = 'u' then
                    match hex4 a2 b2 c3 d2 with
                    | some m =>
                      if 0xdc00 ≤ m ∧ m ≤ 0xdfff then
                        .ch (Char.ofNat (0x10000 + (n - 0xd800) * 0x400 + (m - 0xdc00))) r3
                      else .ch (Char.ofNat 0xfffd) r2
                    | none => .ch (Char.ofNat 0xfffd) r2
                  else .ch (Char.ofNat 0xfffd) r2
                | _ => .ch (Char.ofNat 0xfffd) r2
          | _ => .bad
        else .bad
    else if c.toNat < 0x20 then .bad
    else .ch c rest

/-- Parse the body of a JSON string literal (the opening quote already
consumed), returning the decoded characters and the remaining input.
Each step consumes at least one character, so the fuel passed by
`parseStrBody` can never be exhausted. -/
def parseStrLoop : Nat → List Char → Option (List Char × List Char)
  | 0, _ => none
  | fuel + 1, s =>
    match nextStrTok s with
    | .done rest => some ([], rest)
    | .ch c rest => consFst c (parseStrLoop fuel rest)
    | .bad => none

def parseStrBody (s : List Char) : Option (List Char × List Char) :=
  parseStrLoop (s.length + 1) s

/-- Parse one `"key": "value"` member (with optional whitespace around
the colon), returning the pair and the remaining input. -/
def parseMember (s : List Char) : Option ((String × String) × List Char) :=
  match s with
  | '"' :: r =>
    match parseStrBody r with
    | none => none
    | some (k, r1) =>
      match skipWs r1 with
      | ':' :: r2 =>
        match skipWs r2 with
        | '"' :: r3 =>
          match parseStrBody r3 with
          | none => none
          | some (v, r4) => some ((⟨k⟩, ⟨v⟩), r4)
        | _ => none
      | _ => none
  | _ => none

/-- Parse the members of a non-empty object up to and including the
closing brace.  The fuel argument bounds the number of members; callers
pass the input length plus one, which cannot be exhausted because every
member consumes at least one character. -/
def parseMembersLoop : Nat → List Char → Option (List (String × String) × List Char)
  | 0, _ => none
  | fuel + 1, s =>
    match parseMember s with
    | none => none
    | some (m, r) =>
      match skipWs r with
      | ',' :: r2 =>
        match parseMembersLoop fuel (skipWs r2) with
        | none => none
        | some (ms, rest) => some (m :: ms, rest)
      | '}' :: r2 => some ([m], r2)
      | _ => none

/-- Embedding of `json.Unmarshal(fileData, &data)` for `data : map[string]string`:
`none` is an unmarshal error, `some none` is a successful parse of
`null` (leaving the map `nil`), `some (some c)` a successful object. -/
def unmarshalFlat (s : String) : Option (Option Catalog) :=
  match skipWs s.data with
  | 'n' :: 'u' :: 'l' :: 'l' :: r => if skipWs r = [] then some none else none
  | '{' :: r =>
    match skipWs r with
    | '}' :: r2 => if skipWs r2 = [] then some (some []) else none
    | r1 =>
      match parseMembersLoop (r1.length + 1) r1 with
      | none => none
      | some (ms, rest) =>
        if skipWs rest = [] then
          some (some (ms.foldl (fun acc m => insertKey m.1 m.2 acc) []))
        else none
  | _ => none

/-! ## Catalog Store: `loadJSON` / `saveJSON`

The persisted state is a map from file path to file content.  The
directory part of the path plays no role in the logic, so paths are the
bare file names (`en.json`, `km.json`, `zh.json`).  `Config.wr` says
which paths can be persisted; a `false` entry stands for any failure of
`os.MkdirAll`/`os.WriteFile` in `saveJSON` (src/main.go lines 269-273).
The translation provider of `googleTranslate` is the oracle `Config.tr`
(text and target language code to translated text or error). -/

abbrev Store := List (String × String)

/-- src/main.go lines 234-249.  A path missing from the store covers both
an absent and an unreadable file (`os.ReadFile` error). -/
def loadJSON (st : Store) (path : String) : Catalog :=
  match lookupKey path st with
  | none => []
  | some content =>
    match unmarshalFlat content with
    | none => []
    | some none => []
    | some (some data) => data

/-- src/main.go lines 252-274: serialize with sorted keys and write the
file.  The `Bool` is the Go `error` result: `false` means the write (or
directory creation) failed and the store is unchanged. -/
def saveJSON (wr : String → Bool) (st : Store) (path : String) (data : Catalog) :
    Store × Bool :=
  if wr path then (insertKey path (marshalFlat data) st, true) else (st, false)

structure Config where
  wr : String → Bool
  tr : String → String → Except String String

/-- src/main.go lines 18-22.  Go map iteration order is unspecified; the
model fixes the source order.  None of the verified properties depend on
the order in which the three languages are visited. -/
def languages : List (String × String) :=
  [("en.json", "en"), ("km.json", "km"), ("zh.json", "zh-CN")]

/-! ## Synchronization Engine -/

/-- src/main.go lines 214-231.  Note that both call sites of `saveJSON`
discard its `error` result, exactly as the Go code does (lines 219 and
228), and that on a translation error the handler prints the failure and
falls back to the English `value`.  Console lines are returned in order;
the `filepath.Base` of the model path is the path itself. -/
def processAddOrUpdate (cfg : Config) (st : Store) (path key value : String)
    (isEnglish : Bool) (langCode : String) : Store × List String :=
  let data := loadJSON st path
  if isEnglish then
    ((saveJSON cfg.wr st path (insertKey key value data)).1,
     ["✅ " ++ path ++ ": " ++ value])
  else
    match cfg.tr value langCode with
    | .ok translated =>
      ((saveJSON cfg.wr st path (insertKey key translated data)).1,
       ["✅ " ++ path ++ ": " ++ translated])
    | .error e =>
      ((saveJSON cfg.wr st path (insertKey key value data)).1,
       ["❌ " ++ path ++ ": Translation failed (" ++ e ++ "), using English",
        "✅ " ++ path ++ ": " ++ value])

/-- One iteration of the per-language loop of `runAdd`/`runUpdate`
(src/main.go lines 114-117 and 171-174): `acc` carries the store and the
console lines so far, `fl` is the (file, language-code) pair. -/
def syncLanguage (cfg : Config) (key value : String) (acc : Store × List String)
    (fl : String × String) : Store × List String :=
  let r := processAddOrUpdate cfg acc.1 fl.1 key value (fl.1 == "en.json") fl.2
  (r.1, acc.2 ++ r.2)

/-- The per-language loop shared by `runAdd` and `runUpdate`. -/
def syncLanguages (cfg : Config) (st : Store) (key value : String) :
    Store × List String :=
  languages.foldl (syncLanguage cfg key value) (st, [])

/-- src/main.go lines 96-120.  `setupOk = false` models an `initBasePath`
failure; the handler prints the error and returns (the blank separator
lines and the base-path banner are elided, and the single quotes of the
Go format strings are dropped from the messages). -/
def runAdd (setupOk : Bool) (cfg : Config) (st : Store) (key value : String) :
    Store × List String :=
  if setupOk = false then (st, ["❌ Error: failed to create directory"])
  else
    match lookupKey key (loadJSON st "en.json") with
    | some _ =>
      (st, ["⚠️  Key " ++ key ++ " already exists. Use update command to modify it."])
    | none =>
      let r := syncLanguages cfg st key value
      (r.1, r.2 ++ ["✨ i18n key added to all languages!"])

/-- src/main.go lines 123-150.  The listing prints the reference catalog
sorted by key; `data[k]` lookups over the sorted key list coincide with
the sorted member list because loaded catalogs have unique keys. -/
def runList (setupOk : Bool) (st : Store) : Store × List String :=
  if setupOk = false then (st, ["❌ Error: failed to create directory"])
  else
    let data := loadJSON st "en.json"
    if data.length = 0 then (st, ["📭 No i18n keys found"])
    else
      (st, ("📋 Found " ++ toString data.length ++ " i18n keys:") ::
        (sortCatalog data).map (fun p => "  " ++ p.1 ++ ": " ++ p.2))

/-- src/main.go lines 153-177. -/
def runUpdate (setupOk : Bool) (cfg : Config) (st : Store) (key value : String) :
    Store × List String :=
  if setupOk = false then (st, ["❌ Error: failed to create directory"])
  else
    match lookupKey key (loadJSON st "en.json") with
    | none =>
      (st, ["⚠️  Key " ++ key ++ " does not exist. Use add command to create it."])
    | some _ =>
      let r := syncLanguages cfg st key value
      (r.1, r.2 ++ ["✨ i18n key updated in all languages!"])

/-- One iteration of the per-language loop of `runRemove` (src/main.go
lines 197-208): delete and persist where the key is present, otherwise
just report, tolerating catalogs that already lack the key. -/
def removeLanguage (cfg : Config) (key : String) (acc : Store × List String)
    (fl : String × String) : Store × List String :=
  let data := loadJSON acc.1 fl.1
  match lookupKey key data with
  | some _ =>
    ((saveJSON cfg.wr acc.1 fl.1 (eraseKey key data)).1,
     acc.2 ++ ["✅ " ++ fl.1 ++ ": Key removed"])
  | none => (acc.1, acc.2 ++ ["⏭️  " ++ fl.1 ++ ": Key not found"])

/-- src/main.go lines 180-211.  The `saveJSON` error is discarded here as
well (line 203). -/
def runRemove (setupOk : Bool) (cfg : Config) (st : Store) (key : String) :
    Store × List String :=
  if setupOk = false then (st, ["❌ Error: failed to create directory"])
  else
    match lookupKey key (loadJSON st "en.json") with
    | none => (st, ["⚠️  Key " ++ key ++ " does not exist"])
    | some _ =>
      let r := languages.foldl (removeLanguage cfg key) (st, [])
      (r.1, r.2 ++ ["✨ i18n key removed from all languages!"])

/-! ## CLI dispatch (src/main.go lines 26-76)

The four subcommands validate their positional argument count through
`cobra.ExactArgs`; on a mismatch `rootCmd.Execute()` returns an error and
`main` calls `os.Exit(1)`.  The handlers are plain `Run` functions: they
return normally in every case — including an `initBasePath` failure —
so `Execute()` returns `nil` and the process exits with status zero. -/

inductive CliCmd where
  | add
  | list
  | update
  | remove

def exactArgs : CliCmd → Option Nat
  | .add => some 2
  | .update => some 2
  | .remove => some 1
  | .list => none

def argsOk (c : CliCmd) (args : List String) : Bool :=
  match exactArgs c with
  | some n => args.length == n
  | none => true

structure ExecResult where
  store : Store
  output : List String
  exitCode : Nat

def execCLI (setupOk : Bool) (cfg : Config) (c : CliCmd) (args : List String)
    (st : Store) : ExecResult :=
  if argsOk c args = false then ⟨st, ["Error: wrong number of arguments"], 1⟩
  else
    let r :=
      match c with
      | .add => runAdd setupOk cfg st (args.getD 0 "") (args.getD 1 "")
      | .list => runList setupOk st
      | .update => runUpdate setupOk cfg st (args.getD 0 "") (args.getD 1 "")
      | .remove => runRemove setupOk cfg st (args.getD 0 "")
    ⟨r.1, r.2, 0⟩

/-! ## Operation sequences and the key-parity invariant -/

inductive SyncOp where
  | addOp (k v : String)
  | updateOp (k v : String)
  | removeOp (k : String)

/-- One CLI invocation on a healthy setup, keeping only the store. -/
def applyOp (cfg : Config) (st : Store) : SyncOp → Store
  | .addOp k v => (runAdd true cfg st k v).1
  | .updateOp k v => (runUpdate true cfg st k v).1
  | .removeOp k => (runRemove true cfg st k).1

def runOps (cfg : Config) (ops : List SyncOp) (st : Store) : Store :=
  ops.foldl (applyOp cfg) st

/-- Cross-catalog key parity: every managed catalog, as loaded from the
store, has the same key set as the reference catalog `en.json`. -/
def KeyParity (st : Store) : Prop :=
  ∀ fl ∈ languages, ∀ k : String,
    (lookupKey k (loadJSON st fl.1)).isSome =
      (lookupKey k (loadJSON st "en.json")).isSome

/-! ## Translation provider response parsing (src/main.go lines 276-327)

`googleTranslate` issues an HTTP GET (not modelled) and decodes the body
with `json.Unmarshal(body, &result)` for `result []interface{}`.  The
decoded body is modelled as a `JValue`; a body that is not a JSON array
fails to unmarshal into `[]interface{}`, which the code reports as
`failed to parse response`. -/

inductive JValue where
  | null
  | boolVal (b : Bool)
  | numVal (lit : String)
  | strVal (s : String)
  | arrVal (items : List JValue)
  | objVal (fields : List (String × JValue))

/-- Go `unicode.IsSpace`, restricted to valid scalar values: the Latin-1
white space characters and the Unicode `White_Space` code points. -/
def isSpaceGo (c : Char) : Bool :=
  (9 ≤ c.toNat && c.toNat ≤ 13) || c.toNat = 32 || c.toNat = 0x85 || c.toNat = 0xa0 ||
  c.toNat = 0x1680 || (0x2000 ≤ c.toNat && c.toNat ≤ 0x200a) ||
  c.toNat = 0x2028 || c.toNat = 0x2029 || c.toNat = 0x202f ||
  c.toNat = 0x205f || c.toNat = 0x3000

/-- Go `strings.TrimSpace`. -/
def goTrimSpace (s : String) : String :=
  ⟨((s.data.dropWhile isSpaceGo).reverse.dropWhile isSpaceGo).reverse⟩

/-- The literal fragment of one element of the first nested array:
`arr[0]` when the element is a non-empty array whose first entry is a
string (src/main.go lines 320-322). -/
def fragmentOf : JValue → Option String
  | .arrVal (first :: _) =>
    match first with
    | .strVal s => some s
    | _ => none
  | _ => none

/-- The `strings.Builder` loop of src/main.go lines 318-325. -/
def collectFragments (items : List JValue) : String :=
  items.foldl
    (fun acc item =>
      match fragmentOf item with
      | some s => acc ++ s
      | none => acc) ""

/-- src/main.go lines 304-327: the pure part of `googleTranslate` after
the body has been read — decode checks, shape checks, fragment
concatenation and trimming. -/
def extractTranslation (result : JValue) : Except String String :=
  match result with
  | .arrVal items =>
    match items with
    | [] => .error "empty response"
    | first :: _ =>
      match first with
      | .arrVal translations =>
        match translations with
        | [] => .error "invalid response format"
        | _ :: _ => .ok (goTrimSpace (collectFragments translations))
      | _ => .error "invalid response format"
  | _ => .error "failed to parse response"


/-! ## Round trip of the string escaper -/

theorem skipWs_nil : skipWs [] = [] := rfl

theorem skipWs_cons_neg (c : Char) (t : List Char) (h : isJsonWs c = false) :
    skipWs (c :: t) = c :: t := by
  simp [skipWs, List.dropWhile, h]

theorem skipWs_cons_pos (c : Char) (t : List Char) (h : isJsonWs c = true) :
    skipWs (c :: t) = skipWs t := by
  simp [skipWs, List.dropWhile, h]

theorem hexVal_hexDigitChar : ∀ n : Nat, n < 16 → hexVal (hexDigitChar n) = some n := by
  decide

theorem nextStrTok_quote (rest : List Char) : nextStrTok ('"' :: rest) = .done rest := by
  simp [nextStrTok]

theorem nextStrTok_esc_u (a b c2 d : Char) (n : Nat) (r2 : List Char)
    (h4 : hex4 a b c2 d = some n) (hn : n < 0xd800) :
    nextStrTok ('\\' :: 'u' :: a :: b :: c2 :: d :: r2) = .ch (Char.ofNat n) r2 := by
  simp [nextStrTok, h4, hn]

/-- Decoding the escaped form of one character yields the character back
and the untouched continuation. -/
theorem nextStrTok_escChar (c : Char) (t : List Char) :
    nextStrTok (escChar c ++ t) = .ch c t := by
  by_cases h1 : c = '"'
  · subst h1; simp [escChar, nextStrTok]
  by_cases h2 : c = '\\'
  · subst h2; simp [escChar, nextStrTok]
  by_cases h3 : c = '\n'
  · subst h3; simp [escChar, nextStrTok]
  by_cases h4 : c = '\r'
  · subst h4; simp [escChar, nextStrTok]
  by_cases h5 : c = '\t'
  · subst h5; simp [escChar, nextStrTok]
  by_cases h6 : c.toNat < 0x20
  · have hdiv : c.toNat / 16 < 16 := by omega
    have hmod : c.toNat % 16 < 16 := by omega
    have hfour : hex4 '0' '0' (hexDigitChar (c.toNat / 16)) (hexDigitChar (c.toNat % 16)) =
        some c.toNat := by
      rw [hex4, show hexVal '0' = some 0 from by decide,
        hexVal_hexDigitChar _ hdiv, hexVal_hexDigitChar _ hmod]
      simp
      omega
    rw [show escChar c =
      ['\\', 'u', '0', '0', hexDigitChar (c.toNat / 16), hexDigitChar (c.toNat % 16)]
      from by simp [escChar, h1, h2, h3, h4, h5, h6]]
    rw [show ('\\' :: 'u' :: '0' :: '0' :: hexDigitChar (c.toNat / 16) ::
        hexDigitChar (c.toNat % 16) :: []) ++ t =
      '\\' :: 'u' :: '0' :: '0' :: hexDigitChar (c.toNat / 16) ::
        hexDigitChar (c.toNat % 16) :: t from rfl]
    rw [nextStrTok_esc_u _ _ _ _ c.toNat t hfour (by omega), Char.ofNat_toNat]
  by_cases h7 : c = '<'
  · subst h7
    rw [show escChar '<' ++ t = '\\' :: 'u' :: '0' :: '0' :: '3' :: 'c' :: t from rfl]
    rw [nextStrTok_esc_u _ _ _ _ 0x3c t (by decide) (by decide)]
  by_cases h8 : c = '>'
  · subst h8
    rw [show escChar '>' ++ t = '\\' :: 'u' :: '0' :: '0' :: '3' :: 'e' :: t from rfl]
    rw [nextStrTok_esc_u _ _ _ _ 0x3e t (by decide) (by decide)]
  by_cases h9 : c = '&'
  · subst h9
    rw [show escChar '&' ++ t = '\\' :: 'u' :: '0' :: '0' :: '2' :: '6' :: t from rfl]
    rw [nextStrTok_esc_u _ _ _ _ 0x26 t (by decide) (by decide)]
  by_cases h10 : c = ' '
  · subst h10
    rw [show escChar ' ' ++ t = '\\' :: 'u' :: '2' :: '0' :: '2' :: '8' :: t from rfl]
    rw [nextStrTok_esc_u _ _ _ _ 0x2028 t (by decide) (by decide)]
  by_cases h11 : c = ' '
  · subst h11
    rw [show escChar ' ' ++ t = '\\' :: 'u' :: '2' :: '0' :: '2' :: '9' :: t from rfl]
    rw [nextStrTok_esc_u _ _ _ _ 0x2029 t (by decide) (by decide)]
  · rw [show escChar c = [c] from by
      simp [escChar, h1, h2, h3, h4, h5, h6, h7, h8, h9, h10, h11]]
    rw [show [c] ++ t = c :: t from rfl]
    simp [nextStrTok, h1, h2, h6]

theorem escChar_length (c : Char) : 1 ≤ (escChar c).length := by
  by_cases h1 : c = '"'
  · simp [escChar, h1]
  by_cases h2 : c = '\\'
  · simp [escChar, h1, h2]
  by_cases h3 : c = '\n'
  · simp [escChar, h1, h2, h3]
  by_cases h4 : c = '\r'
  · simp [escChar, h1, h2, h3, h4]
  by_cases h5 : c = '\t'
  · simp [escChar, h1, h2, h3, h4, h5]
  by_cases h6 : c.toNat < 0x20
  · simp [escChar, h1, h2, h3, h4, h5, h6]
  by_cases h7 : c = '<'
  · simp [escChar, h1, h2, h3, h4, h5, h6, h7]
  by_cases h8 : c = '>'
  · simp [escChar, h1, h2, h3, h4, h5, h6, h7, h8]
  by_cases h9 : c = '&'
  · simp [escChar, h1, h2, h3, h4, h5, h6, h7, h8, h9]
  by_cases h10 : c = '\u2028'
  · simp [escChar, h1, h2, h3, h4, h5, h6, h7, h8, h9, h10]
  by_cases h11 : c = '\u2029'
  · simp [escChar, h1, h2, h3, h4, h5, h6, h7, h8, h9, h10, h11]
  · simp [escChar, h1, h2, h3, h4, h5, h6, h7, h8, h9, h10, h11]

theorem escList_length (s : List Char) : s.length ≤ (escList s).length := by
  induction s with
  | nil => simp [escList]
  | cons c s ih =>
    have hc := escChar_length c
    simp only [escList, List.length_append, List.length_cons]
    omega

theorem parseStrLoop_escList (s : List Char) :
    ∀ (fuel : Nat), s.length < fuel → ∀ (rest : List Char),
      parseStrLoop fuel (escList s ++ '"' :: rest) = some (s, rest) := by
  induction s with
  | nil =>
    intro fuel hf rest
    cases fuel with
    | zero => omega
    | succ fuel =>
      rw [show escList [] ++ '"' :: rest = '"' :: rest from rfl]
      rw [parseStrLoop, nextStrTok_quote]
  | cons c s ih =>
    intro fuel hf rest
    cases fuel with
    | zero => omega
    | succ fuel =>
      rw [show escList (c :: s) ++ '"' :: rest =
        escChar c ++ (escList s ++ '"' :: rest) from by simp [escList]]
      rw [parseStrLoop, nextStrTok_escChar]
      have hs : s.length < fuel := by
        simp only [List.length_cons] at hf
        omega
      simp only [ih fuel hs rest, consFst]

theorem parseStrBody_escList (s rest : List Char) :
    parseStrBody (escList s ++ '"' :: rest) = some (s, rest) := by
  rw [parseStrBody]
  refine parseStrLoop_escList s _ ?_ rest
  have := escList_length s
  simp only [List.length_append, List.length_cons]
  omega

/-! ## Round trip of the object renderer -/

theorem skipWs_colon (t : List Char) : skipWs (':' :: t) = ':' :: t :=
  skipWs_cons_neg _ _ (by decide)

theorem skipWs_dquote (t : List Char) : skipWs ('"' :: t) = '"' :: t :=
  skipWs_cons_neg _ _ (by decide)

theorem skipWs_comma (t : List Char) : skipWs (',' :: t) = ',' :: t :=
  skipWs_cons_neg _ _ (by decide)

theorem skipWs_rbrace (t : List Char) : skipWs ('}' :: t) = '}' :: t :=
  skipWs_cons_neg _ _ (by decide)

theorem skipWs_space (t : List Char) : skipWs (' ' :: t) = skipWs t :=
  skipWs_cons_pos _ _ (by decide)

theorem skipWs_nl (t : List Char) : skipWs ('\n' :: t) = skipWs t :=
  skipWs_cons_pos _ _ (by decide)

theorem memberChars_shape (k v : String) (rest : List Char) :
    memberChars (k, v) ++ rest =
      '"' :: (escList k.data ++ '"' ::
        (':' :: ' ' :: ('"' :: (escList v.data ++ '"' :: rest)))) := by
  simp [memberChars, quoteChars]

theorem parseMember_print (k v : String) (rest : List Char) :
    parseMember (memberChars (k, v) ++ rest) = some ((k, v), rest) := by
  rw [memberChars_shape, parseMember]
  simp only [parseStrBody_escList, skipWs_colon, skipWs_space, skipWs_dquote]

/-- The text that follows the first member of a rendered object: either
the closing newline and brace, or a separator and the next member. -/
def sepTail : Catalog → List Char → List Char
  | [], rest => '\n' :: '}' :: rest
  | q :: tail, rest => ',' :: '\n' :: ' ' :: ' ' :: (memberChars q ++ sepTail tail rest)

theorem memberChars_head (p : String × String) :
    memberChars p = '"' :: (escList p.1.data ++ '"' ::
      (':' :: ' ' :: ('"' :: (escList p.2.data ++ '"' :: [])))) := by
  have := memberChars_shape p.1 p.2 []
  simpa using this

theorem sepTail_length (tail : Catalog) (rest : List Char) :
    tail.length ≤ (sepTail tail rest).length := by
  induction tail generalizing rest with
  | nil => simp [sepTail]
  | cons q t ih =>
    simp only [sepTail, List.length_cons, List.length_append]
    have := ih rest
    omega

theorem skipWs_memberChars (p : String × String) (t : List Char) :
    skipWs (memberChars p ++ t) = memberChars p ++ t := by
  rw [memberChars_head p]
  simp only [List.cons_append, skipWs_dquote]

theorem parseMembersLoop_print (tail : Catalog) :
    ∀ (fuel : Nat), tail.length < fuel → ∀ (p : String × String) (rest : List Char),
      parseMembersLoop fuel (memberChars p ++ sepTail tail rest) = some (p :: tail, rest) := by
  induction tail with
  | nil =>
    intro fuel hf p rest
    cases fuel with
    | zero => omega
    | succ fuel =>
      rw [show memberChars p ++ sepTail [] rest =
        memberChars (p.1, p.2) ++ ('\n' :: '}' :: rest) from by simp [sepTail]]
      rw [parseMembersLoop]
      simp only [parseMember_print, skipWs_nl, skipWs_rbrace]
  | cons q t ih =>
    intro fuel hf p rest
    cases fuel with
    | zero => omega
    | succ fuel =>
      rw [show memberChars p ++ sepTail (q :: t) rest =
        memberChars (p.1, p.2) ++
          (',' :: '\n' :: ' ' :: ' ' :: (memberChars q ++ sepTail t rest)) from by
        simp [sepTail]]
      rw [parseMembersLoop]
      have ht : t.length < fuel := by
        simp only [List.length_cons] at hf
        omega
      simp only [parseMember_print, skipWs_comma, skipWs_nl, skipWs_space,
        skipWs_memberChars, ih fuel ht q rest]

theorem skipWs_lbrace (t : List Char) : skipWs ('{' :: t) = '{' :: t :=
  skipWs_cons_neg _ _ (by decide)

theorem membersChars_single (p : String × String) :
    membersChars [p] = ' ' :: ' ' :: (memberChars p ++ []) := rfl

theorem membersChars_cons_cons (p q : String × String) (t : Catalog) :
    membersChars (p :: q :: t) =
      ' ' :: ' ' :: (memberChars p ++ (',' :: '\n' :: membersChars (q :: t))) := rfl

theorem membersChars_sepTail (p : String × String) (tail : Catalog) (rest : List Char) :
    membersChars (p :: tail) ++ '\n' :: '}' :: rest =
      ' ' :: ' ' :: (memberChars p ++ sepTail tail rest) := by
  induction tail generalizing p with
  | nil => simp [membersChars_single, sepTail]
  | cons q t ih =>
    rw [membersChars_cons_cons]
    simp only [List.cons_append, List.append_assoc]
    rw [show membersChars (q :: t) ++ '\n' :: '}' :: rest =
      ' ' :: ' ' :: (memberChars q ++ sepTail t rest) from ih q]
    simp [sepTail]

theorem eraseKey_not_mem (k : String) (c : Catalog) (h : k ∉ keysOf c) :
    eraseKey k c = c := by
  induction c with
  | nil => rfl
  | cons p rest ih =>
    simp only [keysOf, List.map_cons, List.mem_cons] at h
    push_neg at h
    rw [show eraseKey k (p :: rest) = p :: eraseKey k rest from by
      rw [eraseKey, if_neg (fun he : p.1 = k => h.1 he.symm)]]
    rw [ih (by simpa [keysOf] using h.2)]

theorem foldl_insertKey_append (l : Catalog) :
    ∀ acc : Catalog, NodupKeys l → (∀ a ∈ keysOf l, a ∉ keysOf acc) →
      l.foldl (fun acc m => insertKey m.1 m.2 acc) acc = acc ++ l := by
  induction l with
  | nil => intro acc _ _; simp
  | cons m t ih =>
    intro acc hn hd
    have hm : m.1 ∉ keysOf acc := hd m.1 (by simp [keysOf])
    have hstep : insertKey m.1 m.2 acc = acc ++ [m] := by
      rw [insertKey, eraseKey_not_mem _ _ hm]
    rw [List.foldl_cons, hstep]
    have hmt : m.1 ∉ List.map Prod.fst t := (List.nodup_cons.1 hn).1
    rw [ih (acc ++ [m])
      (by simpa [NodupKeys, keysOf] using (List.nodup_cons.1 hn).2)
      ?_]
    · simp
    · intro a ha
      have hat : a ∈ keysOf (m :: t) := by
        simp only [keysOf, List.map_cons, List.mem_cons]
        exact Or.inr ha
      have h1 : a ∉ keysOf acc := hd a hat
      have h2 : a ≠ m.1 := fun he => hmt (he ▸ ha)
      intro hmem
      rw [keysOf, List.map_append] at hmem
      rcases List.mem_append.1 hmem with hx | hx
      · exact h1 hx
      · simp at hx
        exact h2 hx

theorem foldl_insertKey_eq (l : Catalog) (h : NodupKeys l) :
    l.foldl (fun acc m => insertKey m.1 m.2 acc) [] = l := by
  simpa using foldl_insertKey_append l [] h (by simp [keysOf])

/-- Parsing a rendered flat object recovers exactly the member list
(as folded into a fresh map, Go's duplicate-key semantics). -/
theorem unmarshalFlat_renderFlat (l : Catalog) :
    unmarshalFlat ⟨renderFlat l⟩ =
      some (some (l.foldl (fun acc m => insertKey m.1 m.2 acc) [])) := by
  cases l with
  | nil =>
    rw [unmarshalFlat]
    simp [renderFlat, skipWs_lbrace, skipWs_rbrace, skipWs_nil]
  | cons p tail =>
    have hdata : (String.data ⟨renderFlat (p :: tail)⟩) =
        '{' :: '\n' :: (membersChars (p :: tail) ++ '\n' :: '}' :: []) := by
      simp [renderFlat]
    have hskip : skipWs ('\n' :: ' ' :: ' ' :: (memberChars p ++ sepTail tail [])) =
        memberChars p ++ sepTail tail [] := by
      rw [skipWs_nl, skipWs_space, skipWs_space, skipWs_memberChars]
    have hfuel : tail.length < (memberChars p ++ sepTail tail []).length + 1 := by
      have h1 := sepTail_length tail ([] : List Char)
      simp only [List.length_append]
      omega
    have hloop := parseMembersLoop_print tail _ hfuel p []
    obtain ⟨T, hT⟩ : ∃ T, memberChars p ++ sepTail tail [] = '"' :: T :=
      ⟨escList p.1.data ++ '"' :: ':' :: ' ' :: '"' ::
        (escList p.2.data ++ '"' :: sepTail tail []),
       by rw [memberChars_head p]; simp [List.cons_append]⟩
    rw [hT] at hskip hloop
    rw [List.length_cons] at hloop
    rw [unmarshalFlat, hdata, skipWs_lbrace, membersChars_sepTail p tail [], hT]
    simp [hskip, hloop, skipWs_nil]

/-! ## Store-level load/save facts -/

theorem unmarshalFlat_marshalFlat (c : Catalog) (h : NodupKeys c) :
    unmarshalFlat (marshalFlat c) = some (some (sortCatalog c)) := by
  rw [marshalFlat, unmarshalFlat_renderFlat,
    foldl_insertKey_eq _ (nodupKeys_sortCatalog c h)]

theorem nodupKeys_foldl_insertKey (ms : List (String × String)) :
    ∀ acc : Catalog, NodupKeys acc →
      NodupKeys (ms.foldl (fun acc m => insertKey m.1 m.2 acc) acc) := by
  induction ms with
  | nil => intro acc hacc; simpa using hacc
  | cons m t ih =>
    intro acc hacc
    rw [List.foldl_cons]
    exact ih _ (nodupKeys_insertKey m.1 m.2 acc hacc)

theorem nodupKeys_nil : NodupKeys [] := by
  simp [NodupKeys, keysOf]

/-- Every successfully unmarshalled catalog has unique keys. -/
theorem unmarshalFlat_nodupKeys (s : String) (c : Catalog)
    (h : unmarshalFlat s = some (some c)) : NodupKeys c := by
  rw [unmarshalFlat] at h
  split at h
  · split at h <;> simp_all
  · split at h
    · split at h
      · simp only [Option.some.injEq] at h
        exact h.symm ▸ nodupKeys_nil
      · simp_all
    · split at h
      · simp_all
      · split at h
        · simp only [Option.some.injEq] at h
          exact h.symm ▸ nodupKeys_foldl_insertKey _ [] nodupKeys_nil
        · simp_all
  · simp_all

theorem nodupKeys_loadJSON (st : Store) (path : String) :
    NodupKeys (loadJSON st path) := by
  rw [loadJSON]
  split
  · exact nodupKeys_nil
  · rename_i content heq
    split
    · exact nodupKeys_nil
    · exact nodupKeys_nil
    · rename_i data heq2
      exact unmarshalFlat_nodupKeys content data heq2

theorem loadJSON_saveJSON_self (wr : String → Bool) (st : Store) (path : String)
    (data : Catalog) (hwr : wr path = true) (hd : NodupKeys data) :
    loadJSON (saveJSON wr st path data).1 path = sortCatalog data := by
  rw [saveJSON, if_pos hwr]
  simp [loadJSON, lookupKey_insertKey_self, unmarshalFlat_marshalFlat data hd]

theorem saveJSON_fst_of_neg (wr : String → Bool) (st : Store) (path : String)
    (data : Catalog) (hwr : wr path = false) : (saveJSON wr st path data).1 = st := by
  rw [saveJSON, if_neg (by simp [hwr])]

theorem loadJSON_saveJSON_other (wr : String → Bool) (st : Store)
    (path path' : String) (data : Catalog) (hne : path' ≠ path) :
    loadJSON (saveJSON wr st path data).1 path' = loadJSON st path' := by
  by_cases hwr : wr path
  · rw [saveJSON, if_pos hwr]
    rw [loadJSON, loadJSON, lookupKey_insertKey_ne _ _ _ _ hne]
  · rw [saveJSON_fst_of_neg _ _ _ _ (by simpa using hwr)]

/-- Lookup in the catalog re-loaded after a successful save agrees with
the saved map. -/
theorem lookupKey_loadJSON_saveJSON (wr : String → Bool) (st : Store) (path : String)
    (data : Catalog) (hwr : wr path = true) (hd : NodupKeys data) (k : String) :
    lookupKey k (loadJSON (saveJSON wr st path data).1 path) = lookupKey k data := by
  rw [loadJSON_saveJSON_self wr st path data hwr hd, lookupKey_sortCatalog data hd]

/-! ## Engine-level lemmas -/

theorem processAddOrUpdate_english (cfg : Config) (st : Store) (path k v lc : String) :
    processAddOrUpdate cfg st path k v true lc =
      ((saveJSON cfg.wr st path (insertKey k v (loadJSON st path))).1,
       ["✅ " ++ path ++ ": " ++ v]) := by
  rw [processAddOrUpdate, if_pos rfl]

theorem processAddOrUpdate_tr_ok (cfg : Config) (st : Store) (path k v lc t : String)
    (htr : cfg.tr v lc = .ok t) :
    processAddOrUpdate cfg st path k v false lc =
      ((saveJSON cfg.wr st path (insertKey k t (loadJSON st path))).1,
       ["✅ " ++ path ++ ": " ++ t]) := by
  rw [processAddOrUpdate]
  simp [htr]

theorem processAddOrUpdate_tr_error (cfg : Config) (st : Store) (path k v lc e : String)
    (htr : cfg.tr v lc = .error e) :
    processAddOrUpdate cfg st path k v false lc =
      ((saveJSON cfg.wr st path (insertKey k v (loadJSON st path))).1,
       ["❌ " ++ path ++ ": Translation failed (" ++ e ++ "), using English",
        "✅ " ++ path ++ ": " ++ v]) := by
  rw [processAddOrUpdate]
  simp [htr]

/-- After a `processAddOrUpdate` step whose save succeeds, the processed
language's catalog holds exactly the old keys plus `k`. -/
theorem processAddOrUpdate_keys (cfg : Config) (st : Store) (path k v lc : String)
    (isEn : Bool) (hwr : cfg.wr path = true) (k' : String) :
    (lookupKey k' (loadJSON (processAddOrUpdate cfg st path k v isEn lc).1 path)).isSome
      = true ↔
      (k' = k ∨ (lookupKey k' (loadJSON st path)).isSome = true) := by
  have hnd : NodupKeys (loadJSON st path) := nodupKeys_loadJSON st path
  have main : ∀ w : String,
      (lookupKey k'
        (loadJSON (saveJSON cfg.wr st path (insertKey k w (loadJSON st path))).1
          path)).isSome = true ↔
      (k' = k ∨ (lookupKey k' (loadJSON st path)).isSome = true) := by
    intro w
    rw [lookupKey_loadJSON_saveJSON cfg.wr st path _ hwr
      (nodupKeys_insertKey k w _ hnd) k']
    by_cases hk : k' = k
    · subst hk
      simp [lookupKey_insertKey_self]
    · simp [lookupKey_insertKey_ne k w k' _ hk, hk]
  cases isEn with
  | true => rw [processAddOrUpdate_english]; exact main v
  | false =>
    cases htr : cfg.tr v lc with
    | ok t => rw [processAddOrUpdate_tr_ok cfg st path k v lc t htr]; exact main t
    | error e => rw [processAddOrUpdate_tr_error cfg st path k v lc e htr]; exact main v

theorem processAddOrUpdate_other (cfg : Config) (st : Store) (path k v lc : String)
    (isEn : Bool) (p' : String) (hne : p' ≠ path) :
    loadJSON (processAddOrUpdate cfg st path k v isEn lc).1 p' = loadJSON st p' := by
  cases isEn with
  | true =>
    rw [processAddOrUpdate_english]
    exact loadJSON_saveJSON_other _ _ _ _ _ hne
  | false =>
    cases htr : cfg.tr v lc with
    | ok t =>
      rw [processAddOrUpdate_tr_ok cfg st path k v lc t htr]
      exact loadJSON_saveJSON_other _ _ _ _ _ hne
    | error e =>
      rw [processAddOrUpdate_tr_error cfg st path k v lc e htr]
      exact loadJSON_saveJSON_other _ _ _ _ _ hne

theorem removeLanguage_other (cfg : Config) (key : String) (acc : Store × List String)
    (fl : String × String) (p' : String) (hne : p' ≠ fl.1) :
    loadJSON (removeLanguage cfg key acc fl).1 p' = loadJSON acc.1 p' := by
  rw [removeLanguage]
  split
  · exact loadJSON_saveJSON_other _ _ _ _ _ hne
  · rfl

/-- After a `removeLanguage` step whose save succeeds, the processed
language's catalog holds exactly the old keys minus `key`. -/
theorem removeLanguage_keys (cfg : Config) (key : String) (acc : Store × List String)
    (fl : String × String) (hwr : cfg.wr fl.1 = true) (k' : String) :
    (lookupKey k' (loadJSON (removeLanguage cfg key acc fl).1 fl.1)).isSome = true ↔
      ((lookupKey k' (loadJSON acc.1 fl.1)).isSome = true ∧ k' ≠ key) := by
  have hnd : NodupKeys (loadJSON acc.1 fl.1) := nodupKeys_loadJSON acc.1 fl.1
  rw [removeLanguage]
  split
  · rename_i w heq
    rw [lookupKey_loadJSON_saveJSON cfg.wr acc.1 fl.1 _ hwr
      (nodupKeys_eraseKey key _ hnd) k']
    by_cases hk : k' = key
    · subst hk
      simp [lookupKey_eraseKey_self]
    · simp [lookupKey_eraseKey_ne key k' _ hk, hk]
  · rename_i heq
    by_cases hk : k' = key
    · subst hk
      simp [heq]
    · simp [hk]

/-! ## Parity preservation -/

theorem syncLanguages_unfold (cfg : Config) (st : Store) (k v : String) :
    syncLanguages cfg st k v =
      syncLanguage cfg k v
        (syncLanguage cfg k v
          (syncLanguage cfg k v (st, []) ("en.json", "en"))
          ("km.json", "km"))
        ("zh.json", "zh-CN") := by
  rw [syncLanguages, languages]
  rfl

theorem removeLoop_unfold (cfg : Config) (st : Store) (key : String) :
    languages.foldl (removeLanguage cfg key) (st, []) =
      removeLanguage cfg key
        (removeLanguage cfg key
          (removeLanguage cfg key (st, []) ("en.json", "en"))
          ("km.json", "km"))
        ("zh.json", "zh-CN") := by
  rw [languages]
  rfl

theorem syncLanguage_fst (cfg : Config) (k v : String) (acc : Store × List String)
    (fl : String × String) :
    (syncLanguage cfg k v acc fl).1 =
      (processAddOrUpdate cfg acc.1 fl.1 k v (fl.1 == "en.json") fl.2).1 := by
  rw [syncLanguage]

theorem keyParity_iff (st : Store) : KeyParity st ↔
    (∀ k : String, (lookupKey k (loadJSON st "km.json")).isSome =
      (lookupKey k (loadJSON st "en.json")).isSome) ∧
    (∀ k : String, (lookupKey k (loadJSON st "zh.json")).isSome =
      (lookupKey k (loadJSON st "en.json")).isSome) := by
  constructor
  · intro h
    exact ⟨h ("km.json", "km") (by simp [languages]),
           h ("zh.json", "zh-CN") (by simp [languages])⟩
  · rintro ⟨h1, h2⟩ fl hfl k
    simp only [languages, List.mem_cons, List.not_mem_nil, or_false] at hfl
    rcases hfl with h | h | h <;> subst h
    · rfl
    · exact h1 k
    · exact h2 k

theorem boolEq_of_iff {a b : Bool} (h : a = true ↔ b = true) : a = b := by
  cases a <;> cases b <;> simp_all

theorem syncLanguage_en (cfg : Config) (k v : String) (acc : Store × List String) :
    syncLanguage cfg k v acc ("en.json", "en") =
      ((processAddOrUpdate cfg acc.1 "en.json" k v true "en").1,
        acc.2 ++ (processAddOrUpdate cfg acc.1 "en.json" k v true "en").2) := rfl

theorem syncLanguage_km (cfg : Config) (k v : String) (acc : Store × List String) :
    syncLanguage cfg k v acc ("km.json", "km") =
      ((processAddOrUpdate cfg acc.1 "km.json" k v false "km").1,
        acc.2 ++ (processAddOrUpdate cfg acc.1 "km.json" k v false "km").2) := rfl

theorem syncLanguage_zh (cfg : Config) (k v : String) (acc : Store × List String) :
    syncLanguage cfg k v acc ("zh.json", "zh-CN") =
      ((processAddOrUpdate cfg acc.1 "zh.json" k v false "zh-CN").1,
        acc.2 ++ (processAddOrUpdate cfg acc.1 "zh.json" k v false "zh-CN").2) := rfl

/-- The final store of the add/update loop, as three chained
`processAddOrUpdate` steps. -/
theorem syncLanguages_fst (cfg : Config) (st : Store) (k v : String) :
    (syncLanguages cfg st k v).1 =
      (processAddOrUpdate cfg
        (processAddOrUpdate cfg
          (processAddOrUpdate cfg st "en.json" k v true "en").1
          "km.json" k v false "km").1
        "zh.json" k v false "zh-CN").1 := by
  rw [syncLanguages_unfold, syncLanguage_en, syncLanguage_km, syncLanguage_zh]

/-- The console output of the add/update loop, in language order. -/
theorem syncLanguages_snd (cfg : Config) (st : Store) (k v : String) :
    (syncLanguages cfg st k v).2 =
      (processAddOrUpdate cfg st "en.json" k v true "en").2 ++
      (processAddOrUpdate cfg
        (processAddOrUpdate cfg st "en.json" k v true "en").1
        "km.json" k v false "km").2 ++
      (processAddOrUpdate cfg
        (processAddOrUpdate cfg
          (processAddOrUpdate cfg st "en.json" k v true "en").1
          "km.json" k v false "km").1
        "zh.json" k v false "zh-CN").2 := by
  rw [syncLanguages_unfold, syncLanguage_en, syncLanguage_km, syncLanguage_zh]
  simp

theorem syncLanguages_parity (cfg : Config) (st : Store) (k v : String)
    (hwr : ∀ p, cfg.wr p = true) (hp : KeyParity st) :
    KeyParity (syncLanguages cfg st k v).1 := by
  obtain ⟨hkm, hzh⟩ := (keyParity_iff st).1 hp
  rw [keyParity_iff, syncLanguages_fst]
  have h1km : loadJSON (processAddOrUpdate cfg st "en.json" k v true "en").1
      "km.json" = loadJSON st "km.json" :=
    processAddOrUpdate_other cfg st _ k v _ _ _ (by decide)
  have h1zh : loadJSON (processAddOrUpdate cfg st "en.json" k v true "en").1
      "zh.json" = loadJSON st "zh.json" :=
    processAddOrUpdate_other cfg st _ k v _ _ _ (by decide)
  have h2en : loadJSON (processAddOrUpdate cfg
      (processAddOrUpdate cfg st "en.json" k v true "en").1
      "km.json" k v false "km").1 "en.json" =
      loadJSON (processAddOrUpdate cfg st "en.json" k v true "en").1 "en.json" :=
    processAddOrUpdate_other cfg _ _ k v _ _ _ (by decide)
  have h2zh : loadJSON (processAddOrUpdate cfg
      (processAddOrUpdate cfg st "en.json" k v true "en").1
      "km.json" k v false "km").1 "zh.json" =
      loadJSON (processAddOrUpdate cfg st "en.json" k v true "en").1 "zh.json" :=
    processAddOrUpdate_other cfg _ _ k v _ _ _ (by decide)
  have h3en : ∀ st2 : Store, loadJSON (processAddOrUpdate cfg st2
      "zh.json" k v false "zh-CN").1 "en.json" = loadJSON st2 "en.json" :=
    fun st2 => processAddOrUpdate_other cfg st2 _ k v _ _ _ (by decide)
  have h3km : ∀ st2 : Store, loadJSON (processAddOrUpdate cfg st2
      "zh.json" k v false "zh-CN").1 "km.json" = loadJSON st2 "km.json" :=
    fun st2 => processAddOrUpdate_other cfg st2 _ k v _ _ _ (by decide)
  constructor
  · intro k'
    apply boolEq_of_iff
    rw [h3km, h3en, h2en]
    rw [processAddOrUpdate_keys cfg _ _ k v _ _ (hwr _) k']
    rw [processAddOrUpdate_keys cfg _ _ k v _ _ (hwr _) k']
    rw [h1km]
    rw [show (lookupKey k' (loadJSON st "km.json")).isSome =
      (lookupKey k' (loadJSON st "en.json")).isSome from hkm k']
  · intro k'
    apply boolEq_of_iff
    rw [h3en, h2en]
    rw [processAddOrUpdate_keys cfg _ _ k v _ _ (hwr _) k']
    rw [processAddOrUpdate_keys cfg _ _ k v _ _ (hwr _) k']
    rw [h2zh, h1zh]
    rw [show (lookupKey k' (loadJSON st "zh.json")).isSome =
      (lookupKey k' (loadJSON st "en.json")).isSome from hzh k']

theorem removeLoop_parity (cfg : Config) (st : Store) (key : String)
    (hwr : ∀ p, cfg.wr p = true) (hp : KeyParity st) :
    KeyParity (languages.foldl (removeLanguage cfg key) (st, [])).1 := by
  obtain ⟨hkm, hzh⟩ := (keyParity_iff st).1 hp
  rw [keyParity_iff, removeLoop_unfold]
  have h1km : loadJSON (removeLanguage cfg key (st, []) ("en.json", "en")).1
      "km.json" = loadJSON st "km.json" :=
    removeLanguage_other cfg key (st, []) _ _ (by decide)
  have h1zh : loadJSON (removeLanguage cfg key (st, []) ("en.json", "en")).1
      "zh.json" = loadJSON st "zh.json" :=
    removeLanguage_other cfg key (st, []) _ _ (by decide)
  have h2en : loadJSON (removeLanguage cfg key
      (removeLanguage cfg key (st, []) ("en.json", "en")) ("km.json", "km")).1
      "en.json" =
      loadJSON (removeLanguage cfg key (st, []) ("en.json", "en")).1 "en.json" :=
    removeLanguage_other cfg key _ _ _ (by decide)
  have h2zh : loadJSON (removeLanguage cfg key
      (removeLanguage cfg key (st, []) ("en.json", "en")) ("km.json", "km")).1
      "zh.json" =
      loadJSON (removeLanguage cfg key (st, []) ("en.json", "en")).1 "zh.json" :=
    removeLanguage_other cfg key _ _ _ (by decide)
  have h3en : ∀ acc : Store × List String, loadJSON
      (removeLanguage cfg key acc ("zh.json", "zh-CN")).1 "en.json" =
      loadJSON acc.1 "en.json" :=
    fun acc => removeLanguage_other cfg key acc _ _ (by decide)
  have h3km : ∀ acc : Store × List String, loadJSON
      (removeLanguage cfg key acc ("zh.json", "zh-CN")).1 "km.json" =
      loadJSON acc.1 "km.json" :=
    fun acc => removeLanguage_other cfg key acc _ _ (by decide)
  constructor
  · intro k'
    apply boolEq_of_iff
    rw [h3km, h3en, h2en]
    rw [removeLanguage_keys cfg key _ _ (hwr _) k']
    rw [removeLanguage_keys cfg key _ _ (hwr _) k']
    rw [h1km]
    rw [show (lookupKey k' (loadJSON st "km.json")).isSome =
      (lookupKey k' (loadJSON st "en.json")).isSome from hkm k']
  · intro k'
    apply boolEq_of_iff
    rw [h3en, h2en]
    rw [removeLanguage_keys cfg key _ _ (hwr _) k']
    rw [removeLanguage_keys cfg key _ _ (hwr _) k']
    rw [h2zh, h1zh]
    rw [show (lookupKey k' (loadJSON st "zh.json")).isSome =
      (lookupKey k' (loadJSON st "en.json")).isSome from hzh k']

theorem runAdd_fst (cfg : Config) (st : Store) (k v : String) :
    (runAdd true cfg st k v).1 =
      (match lookupKey k (loadJSON st "en.json") with
       | some _ => st
       | none => (syncLanguages cfg st k v).1) := by
  rw [runAdd, if_neg (by decide)]
  cases lookupKey k (loadJSON st "en.json") <;> rfl

theorem runUpdate_fst (cfg : Config) (st : Store) (k v : String) :
    (runUpdate true cfg st k v).1 =
      (match lookupKey k (loadJSON st "en.json") with
       | none => st
       | some _ => (syncLanguages cfg st k v).1) := by
  rw [runUpdate, if_neg (by decide)]
  cases lookupKey k (loadJSON st "en.json") <;> rfl

theorem runRemove_fst (cfg : Config) (st : Store) (k : String) :
    (runRemove true cfg st k).1 =
      (match lookupKey k (loadJSON st "en.json") with
       | none => st
       | some _ => (languages.foldl (removeLanguage cfg k) (st, [])).1) := by
  rw [runRemove, if_neg (by decide)]
  cases lookupKey k (loadJSON st "en.json") <;> rfl

theorem applyOp_parity (cfg : Config) (hwr : ∀ p, cfg.wr p = true) (st : Store)
    (hp : KeyParity st) (op : SyncOp) : KeyParity (applyOp cfg st op) := by
  cases op with
  | addOp k v =>
    rw [applyOp, runAdd_fst]
    cases lookupKey k (loadJSON st "en.json")
    · exact syncLanguages_parity cfg st k v hwr hp
    · exact hp
  | updateOp k v =>
    rw [applyOp, runUpdate_fst]
    cases lookupKey k (loadJSON st "en.json")
    · exact hp
    · exact syncLanguages_parity cfg st k v hwr hp
  | removeOp k =>
    rw [applyOp, runRemove_fst]
    cases lookupKey k (loadJSON st "en.json")
    · exact hp
    · exact removeLoop_parity cfg st k hwr hp

/-! ## Further engine unfolding lemmas -/

theorem processAddOrUpdate_fst_nowrite (cfg : Config) (st : Store)
    (path k v lc : String) (isEn : Bool) (hwr : cfg.wr path = false) :
    (processAddOrUpdate cfg st path k v isEn lc).1 = st := by
  cases isEn with
  | true =>
    rw [processAddOrUpdate_english]
    exact saveJSON_fst_of_neg _ _ _ _ hwr
  | false =>
    cases htr : cfg.tr v lc with
    | ok t =>
      rw [processAddOrUpdate_tr_ok cfg st path k v lc t htr]
      exact saveJSON_fst_of_neg _ _ _ _ hwr
    | error e =>
      rw [processAddOrUpdate_tr_error cfg st path k v lc e htr]
      exact saveJSON_fst_of_neg _ _ _ _ hwr

theorem runAdd_not_exists (cfg : Config) (st : Store) (k v : String)
    (hnew : lookupKey k (loadJSON st "en.json") = none) :
    runAdd true cfg st k v =
      ((syncLanguages cfg st k v).1,
       (syncLanguages cfg st k v).2 ++ ["✨ i18n key added to all languages!"]) := by
  rw [runAdd, if_neg (by decide)]
  simp [hnew]

/-- A translation provider that echoes the source text and a store that
accepts every write: the simplest healthy configuration. -/
def allOkConfig : Config := ⟨fun _ => true, fun v _ => Except.ok v⟩

/-- C1.  For every sequence of add/update/remove operations run with all
saves succeeding, starting from a store satisfying the cross-catalog
key-parity invariant (for instance the empty base directory), the final
store satisfies it as well; since the sequence is arbitrary, the
invariant holds at every observation point between operations. -/
theorem parity_preserved_by_ops (cfg : Config) (hwr : ∀ p, cfg.wr p = true)
    (st : Store) (hp : KeyParity st) (ops : List SyncOp) :
    KeyParity (runOps cfg ops st) := by
  induction ops generalizing st with
  | nil => simpa [runOps] using hp
  | cons op t ih =>
    rw [runOps, List.foldl_cons]
    exact ih (applyOp cfg st op) (applyOp_parity cfg hwr st hp op)

theorem parity_preserved_by_ops_witness :
    (∀ p, allOkConfig.wr p = true) ∧ KeyParity ([] : Store) ∧
    KeyParity (runOps allOkConfig
      [SyncOp.addOp "greeting" "Hello", SyncOp.updateOp "greeting" "Hi",
       SyncOp.removeOp "greeting"] []) :=
  ⟨fun _ => rfl, fun _ _ _ => rfl,
   parity_preserved_by_ops allOkConfig (fun _ => rfl) [] (fun _ _ _ => rfl)
     [SyncOp.addOp "greeting" "Hello", SyncOp.updateOp "greeting" "Hi",
      SyncOp.removeOp "greeting"]⟩

/-- C6.  Round trip: saving a catalog (a Go map, hence unique keys) with
`saveJSON` and re-loading it with `loadJSON` returns an equal mapping —
a permutation of the original with identical lookups for every key
(order-independent equality at the mapping level). -/
theorem save_load_round_trip (wr : String → Bool) (st : Store) (path : String)
    (m : Catalog) (hm : NodupKeys m) (hwr : wr path = true) :
    List.Perm (loadJSON (saveJSON wr st path m).1 path) m ∧
    ∀ k, lookupKey k (loadJSON (saveJSON wr st path m).1 path) = lookupKey k m := by
  constructor
  · rw [loadJSON_saveJSON_self wr st path m hwr hm]
    exact sortCatalog_perm m
  · exact lookupKey_loadJSON_saveJSON wr st path m hwr hm

theorem save_load_round_trip_witness :
    NodupKeys [("b", "2"), ("a", "1")] ∧
    (List.Perm (loadJSON (saveJSON (fun _ => true) [] "en.json"
        [("b", "2"), ("a", "1")]).1 "en.json") [("b", "2"), ("a", "1")] ∧
     ∀ k, lookupKey k (loadJSON (saveJSON (fun _ => true) [] "en.json"
        [("b", "2"), ("a", "1")]).1 "en.json") =
       lookupKey k [("b", "2"), ("a", "1")]) :=
  ⟨by decide, save_load_round_trip (fun _ => true) [] "en.json"
    [("b", "2"), ("a", "1")] (by decide) rfl⟩

/-- C7.  Saving is deterministic and canonical: two catalogs with unique
keys that are equal as mappings serialize to byte-identical documents,
and the members of the document appear in strictly ascending key order
(the two-space indentation is fixed in `renderFlat`/`membersChars`,
mirroring `json.MarshalIndent(…, "", "  ")`). -/
theorem save_deterministic_canonical (m₁ m₂ : Catalog) (h₁ : NodupKeys m₁)
    (h₂ : NodupKeys m₂) (heq : ∀ k, lookupKey k m₁ = lookupKey k m₂) :
    marshalFlat m₁ = marshalFlat m₂ ∧
    List.Pairwise (· < ·) (keysOf (sortCatalog m₁)) := by
  have hs1 : List.Pairwise keyLT (sortCatalog m₁) :=
    sorted_keyLT _ (sortCatalog_sorted m₁) (nodupKeys_sortCatalog m₁ h₁)
  have hs2 : List.Pairwise keyLT (sortCatalog m₂) :=
    sorted_keyLT _ (sortCatalog_sorted m₂) (nodupKeys_sortCatalog m₂ h₂)
  have hsort : sortCatalog m₁ = sortCatalog m₂ := by
    refine eq_of_sorted_lookup_eq _ _ hs1 hs2 ?_
    intro k
    rw [lookupKey_sortCatalog m₁ h₁ k, lookupKey_sortCatalog m₂ h₂ k]
    exact heq k
  refine ⟨by rw [marshalFlat, marshalFlat, hsort], ?_⟩
  have : List.Pairwise (fun p q : String × String => p.1 < q.1) (sortCatalog m₁) := hs1
  exact List.pairwise_map.2 this

theorem save_deterministic_canonical_witness :
    NodupKeys [("b", "2"), ("a", "1")] ∧ NodupKeys [("a", "1"), ("b", "2")] ∧
    (∀ k, lookupKey k [("b", "2"), ("a", "1")] =
      lookupKey k [("a", "1"), ("b", "2")]) ∧
    (marshalFlat [("b", "2"), ("a", "1")] = marshalFlat [("a", "1"), ("b", "2")] ∧
     List.Pairwise (· < ·) (keysOf (sortCatalog [("b", "2"), ("a", "1")]))) := by
  have hlook : ∀ k, lookupKey k [("b", "2"), ("a", "1")] =
      lookupKey k [("a", "1"), ("b", "2")] := by
    intro k
    by_cases ha : "a" = k
    · simp [lookupKey, ha, show ¬ "b" = k from fun h => by simp [← h] at ha]
    · by_cases hb : "b" = k
      · simp [lookupKey, ha, hb]
      · simp [lookupKey, ha, hb]
  exact ⟨by decide, by decide, hlook,
    save_deterministic_canonical _ _ (by decide) (by decide) hlook⟩

/-- C8.  `loadJSON` never fails its caller: whenever the persisted
document for a path is absent/unreadable (no entry in the store) or its
content does not parse as a flat string-to-string mapping, the loaded
catalog is empty rather than an error. -/
theorem load_never_fails_caller (st : Store) (path : String)
    (h : lookupKey path st = none ∨
      ∃ s, lookupKey path st = some s ∧ unmarshalFlat s = none) :
    loadJSON st path = [] := by
  rcases h with h | ⟨s, hs, hu⟩
  · simp [loadJSON, h]
  · simp [loadJSON, hs, hu]

theorem load_never_fails_caller_witness :
    (lookupKey "en.json" [("en.json", "not json"), ("km.json", "[1, 2]")] =
        some "not json" ∧
      unmarshalFlat "not json" = none) ∧
    (lookupKey "zh.json" [("en.json", "not json"), ("km.json", "[1, 2]")] = none) ∧
    loadJSON [("en.json", "not json"), ("km.json", "[1, 2]")] "en.json" = [] ∧
    loadJSON [("en.json", "not json"), ("km.json", "[1, 2]")] "km.json" = [] ∧
    loadJSON [("en.json", "not json"), ("km.json", "[1, 2]")] "zh.json" = [] :=
  ⟨⟨by decide, by decide⟩, by decide,
   load_never_fails_caller _ _ (Or.inr ⟨"not json", by decide, by decide⟩),
   load_never_fails_caller _ _ (Or.inr ⟨"[1, 2]", by decide, by decide⟩),
   load_never_fails_caller _ _ (Or.inl (by decide))⟩

/-! ## Translation-response claims -/

/-- The specification-side description of the extracted text: the list of
literal string fragments appearing as the first element of each nested
array, in order. -/
def specFragments (items : List JValue) : List String := items.filterMap fragmentOf

def concatAll (l : List String) : String := l.foldl (fun a b => a ++ b) ""

theorem foldl_append_strings (l : List String) :
    ∀ acc : String, l.foldl (fun a b => a ++ b) acc = acc ++ concatAll l := by
  induction l with
  | nil =>
    intro acc
    simp [concatAll]
  | cons s t ih =>
    intro acc
    rw [List.foldl_cons, ih (acc ++ s)]
    rw [show concatAll (s :: t) = s ++ concatAll t from by
      rw [concatAll, List.foldl_cons, show ("" : String) ++ s = s from rfl]
      exact ih s]
    rw [String.append_assoc]

theorem collectFragments_eq (items : List JValue) :
    collectFragments items = concatAll (specFragments items) := by
  rw [collectFragments]
  have main : ∀ acc : String, items.foldl
      (fun acc item => match fragmentOf item with
        | some s => acc ++ s
        | none => acc) acc = acc ++ concatAll (specFragments items) := by
    induction items with
    | nil =>
      intro acc
      simp [specFragments, concatAll]
    | cons i t ih =>
      intro acc
      rw [List.foldl_cons]
      cases hf : fragmentOf i with
      | none =>
        simp only [hf]
        rw [ih acc]
        rw [show specFragments (i :: t) = specFragments t from by
          simp [specFragments, List.filterMap_cons, hf]]
      | some s =>
        simp only [hf]
        rw [ih (acc ++ s)]
        rw [show specFragments (i :: t) = s :: specFragments t from by
          simp [specFragments, List.filterMap_cons, hf]]
        rw [show concatAll (s :: specFragments t) = s ++ concatAll (specFragments t)
          from by
          rw [concatAll, List.foldl_cons, show ("" : String) ++ s = s from rfl,
            foldl_append_strings]]
        rw [String.append_assoc]
  rw [main ""]
  rfl

/-- C9.  For a well-formed provider response — a JSON array whose first
element is a non-empty array — the parser returns exactly the in-order
concatenation of the literal string fragments found as the first element
of each nested array, with surrounding whitespace trimmed, ignoring
non-string metadata; an empty array is reported as `empty response` and
a non-array-shaped response as an unmarshal failure, both as errors
rather than crashes. -/
theorem translate_response_parsing (translations rest : List JValue)
    (hne : translations ≠ []) :
    extractTranslation (.arrVal (JValue.arrVal translations :: rest)) =
        .ok (goTrimSpace (concatAll (specFragments translations))) ∧
    extractTranslation (.arrVal []) = .error "empty response" ∧
    (∀ v : JValue, (∀ items, v ≠ .arrVal items) →
      extractTranslation v = .error "failed to parse response") := by
  refine ⟨?_, rfl, ?_⟩
  · cases translations with
    | nil => exact absurd rfl hne
    | cons t ts =>
      rw [extractTranslation, collectFragments_eq]
  · intro v hv
    cases v with
    | arrVal items => exact absurd rfl (hv items)
    | null => rfl
    | boolVal b => rfl
    | numVal lit => rfl
    | strVal s => rfl
    | objVal fields => rfl

theorem translate_response_parsing_witness :
    ([JValue.arrVal [JValue.strVal "Hola ", JValue.numVal "1"],
      JValue.arrVal [JValue.strVal " mundo"],
      JValue.numVal "0.98"] ≠ []) ∧
    (extractTranslation (.arrVal (JValue.arrVal
        [JValue.arrVal [JValue.strVal "Hola ", JValue.numVal "1"],
         JValue.arrVal [JValue.strVal " mundo"],
         JValue.numVal "0.98"] :: [JValue.null])) =
      .ok (goTrimSpace (concatAll (specFragments
        [JValue.arrVal [JValue.strVal "Hola ", JValue.numVal "1"],
         JValue.arrVal [JValue.strVal " mundo"],
         JValue.numVal "0.98"]))) ∧
     extractTranslation (.arrVal []) = .error "empty response" ∧
     (∀ v : JValue, (∀ items, v ≠ .arrVal items) →
       extractTranslation v = .error "failed to parse response")) ∧
    goTrimSpace (concatAll (specFragments
      [JValue.arrVal [JValue.strVal "Hola ", JValue.numVal "1"],
       JValue.arrVal [JValue.strVal " mundo"],
       JValue.numVal "0.98"])) = "Hola  mundo" :=
  ⟨List.cons_ne_nil _ _,
   translate_response_parsing _ [JValue.null] (List.cons_ne_nil _ _),
   by decide⟩

/-- C10 (implicit).  A provider response that is a JSON array whose first
element is a non-empty array containing no element of the shape
`[string, …]` makes `googleTranslate` return the empty string with no
error, and `processAddOrUpdate` then stores the empty string as the
language's value instead of falling back to the source text. -/
theorem empty_translation_success_stored (translations rest : List JValue)
    (hne : translations ≠ []) (hnofrag : ∀ t ∈ translations, fragmentOf t = none)
    (cfg : Config) (st : Store) (path k v lc : String)
    (htr : cfg.tr v lc = .ok "") (hwr : cfg.wr path = true) :
    extractTranslation (.arrVal (JValue.arrVal translations :: rest)) = .ok "" ∧
    lookupKey k (loadJSON (processAddOrUpdate cfg st path k v false lc).1 path) =
      some "" := by
  constructor
  · cases translations with
    | nil => exact absurd rfl hne
    | cons t ts =>
      rw [extractTranslation, collectFragments_eq]
      rw [show specFragments (t :: ts) = [] from
        List.filterMap_eq_nil_iff.2 hnofrag]
      rfl
  · rw [processAddOrUpdate_tr_ok cfg st path k v lc "" htr]
    rw [lookupKey_loadJSON_saveJSON cfg.wr st path _ hwr
      (nodupKeys_insertKey k "" _ (nodupKeys_loadJSON st path)) k]
    exact lookupKey_insertKey_self k "" _

theorem empty_translation_success_stored_witness :
    ([JValue.arrVal [], JValue.numVal "3"] ≠ []) ∧
    (∀ t ∈ [JValue.arrVal [], JValue.numVal "3"], fragmentOf t = none) ∧
    allOkConfig.tr "" "km" = .ok "" ∧ allOkConfig.wr "km.json" = true ∧
    (extractTranslation (.arrVal (JValue.arrVal
        [JValue.arrVal [], JValue.numVal "3"] :: [])) = .ok "" ∧
     lookupKey "greeting" (loadJSON
       (processAddOrUpdate allOkConfig [] "km.json" "greeting" "" false "km").1
       "km.json") = some "") :=
  ⟨List.cons_ne_nil _ _,
   by intro t ht; simp only [List.mem_cons, List.not_mem_nil, or_false] at ht
      rcases ht with rfl | rfl <;> rfl,
   rfl, rfl,
   empty_translation_success_stored _ [] (List.cons_ne_nil _ _)
     (by intro t ht; simp only [List.mem_cons, List.not_mem_nil, or_false] at ht
         rcases ht with rfl | rfl <;> rfl)
     allOkConfig [] "km.json" "greeting" "" "km" rfl rfl⟩

/-! ## Error-handling claims on the engine -/

/-- C4.  Adding a key that already exists in the reference catalog is
atomically rejected: the handler prints the `already exists` warning and
returns the store untouched, so every managed catalog's persisted
document is byte-identical to its pre-operation content. -/
theorem add_duplicate_rejected (cfg : Config) (st : Store) (k v : String)
    (h : (lookupKey k (loadJSON st "en.json")).isSome = true) :
    runAdd true cfg st k v =
      (st, ["⚠️  Key " ++ k ++ " already exists. Use update command to modify it."]) := by
  rw [runAdd, if_neg (by decide)]
  obtain ⟨w, hw⟩ := Option.isSome_iff_exists.1 h
  simp [hw]

theorem add_duplicate_rejected_witness :
    ((lookupKey "greeting" (loadJSON
        [("en.json", marshalFlat [("greeting", "Hello")])] "en.json")).isSome
      = true) ∧
    runAdd true allOkConfig [("en.json", marshalFlat [("greeting", "Hello")])]
        "greeting" "Hi" =
      ([("en.json", marshalFlat [("greeting", "Hello")])],
       ["⚠️  Key greeting already exists. Use update command to modify it."]) :=
  ⟨by decide,
   add_duplicate_rejected allOkConfig _ "greeting" "Hi" (by decide)⟩

/-- C5.  When the Translation Provider fails for a non-reference
language, `processAddOrUpdate` logs the failure, stores the untranslated
source value under the key, and still completes: the catalog afterwards
maps the key to the source value and agrees with the old catalog on
every other key, so the key set grows exactly by the key and parity with
the reference catalog is preserved. -/
theorem translation_failure_fallback (cfg : Config) (st : Store)
    (path k v lc e : String) (htr : cfg.tr v lc = .error e)
    (hwr : cfg.wr path = true) :
    (processAddOrUpdate cfg st path k v false lc).2 =
      ["❌ " ++ path ++ ": Translation failed (" ++ e ++ "), using English",
       "✅ " ++ path ++ ": " ++ v] ∧
    lookupKey k (loadJSON (processAddOrUpdate cfg st path k v false lc).1 path) =
      some v ∧
    (∀ k', k' ≠ k →
      lookupKey k' (loadJSON (processAddOrUpdate cfg st path k v false lc).1 path) =
        lookupKey k' (loadJSON st path)) := by
  have hnd : NodupKeys (loadJSON st path) := nodupKeys_loadJSON st path
  rw [processAddOrUpdate_tr_error cfg st path k v lc e htr]
  refine ⟨rfl, ?_, ?_⟩
  · rw [lookupKey_loadJSON_saveJSON cfg.wr st path _ hwr
      (nodupKeys_insertKey k v _ hnd) k]
    exact lookupKey_insertKey_self k v _
  · intro k' hk
    rw [lookupKey_loadJSON_saveJSON cfg.wr st path _ hwr
      (nodupKeys_insertKey k v _ hnd) k']
    exact lookupKey_insertKey_ne k v k' _ hk

/-- A provider stub that always fails, over a fully writable store. -/
def failTrConfig : Config := ⟨fun _ => true, fun _ _ => Except.error "stub failure"⟩

theorem translation_failure_fallback_witness :
    failTrConfig.tr "hello" "km" = .error "stub failure" ∧
    failTrConfig.wr "km.json" = true ∧
    ((processAddOrUpdate failTrConfig [] "km.json" "greeting" "hello" false "km").2 =
      ["❌ km.json: Translation failed (stub failure), using English",
       "✅ km.json: hello"] ∧
     lookupKey "greeting" (loadJSON
       (processAddOrUpdate failTrConfig [] "km.json" "greeting" "hello" false
         "km").1 "km.json") = some "hello" ∧
     (∀ k', k' ≠ "greeting" →
       lookupKey k' (loadJSON
         (processAddOrUpdate failTrConfig [] "km.json" "greeting" "hello" false
           "km").1 "km.json") = lookupKey k' (loadJSON [] "km.json"))) :=
  ⟨rfl, rfl,
   translation_failure_fallback failTrConfig [] "km.json" "greeting" "hello"
     "km" "stub failure" rfl rfl⟩

/-- A store that rejects writes to `km.json` only (for example, the file
has been made read-only), with an echoing translation provider. -/
def kmFailConfig : Config := ⟨fun p => p != "km.json", fun v _ => Except.ok v⟩

/-- C2 counterexample.  With `km.json` unwritable, `add greeting Hello`
on an empty base directory prints the ordinary success line for
`km.json` — the `saveJSON` error is discarded at the call site
(src/main.go line 228), so no failure is reported for that language —
even though the km catalog was never persisted (the store still has no
`km.json` entry), while the other languages were attempted and written. -/
theorem persist_failure_reported_cex :
    (runAdd true kmFailConfig [] "greeting" "Hello").2 =
      ["✅ en.json: Hello", "✅ km.json: Hello", "✅ zh.json: Hello",
       "✨ i18n key added to all languages!"] ∧
    lookupKey "km.json" (runAdd true kmFailConfig [] "greeting" "Hello").1 = none ∧
    lookupKey "greeting"
      (loadJSON (runAdd true kmFailConfig [] "greeting" "Hello").1 "en.json") =
      some "Hello" := by
  decide

/-- C2 (amended).  When persisting one language's catalog fails, the
error returned by `saveJSON` is discarded by its caller: no failure is
reported for that language — the per-language success status line is
printed regardless — and the catalog is silently left unchanged, while
the operations on the other languages' catalogs are still attempted and
persisted (per-language isolation, no global abort). -/
theorem persist_failure_silently_ignored (cfg : Config) (st : Store)
    (k v tkm tzh : String)
    (hen : cfg.wr "en.json" = true) (hzh : cfg.wr "zh.json" = true)
    (hkm : cfg.wr "km.json" = false)
    (htrkm : cfg.tr v "km" = .ok tkm) (htrzh : cfg.tr v "zh-CN" = .ok tzh)
    (hnew : lookupKey k (loadJSON st "en.json") = none) :
    loadJSON (runAdd true cfg st k v).1 "km.json" = loadJSON st "km.json" ∧
    (runAdd true cfg st k v).2 =
      ["✅ en.json: " ++ v, "✅ km.json: " ++ tkm, "✅ zh.json: " ++ tzh,
       "✨ i18n key added to all languages!"] ∧
    lookupKey k (loadJSON (runAdd true cfg st k v).1 "en.json") = some v ∧
    lookupKey k (loadJSON (runAdd true cfg st k v).1 "zh.json") = some tzh := by
  rw [runAdd_not_exists cfg st k v hnew]
  have h2fst : (processAddOrUpdate cfg
      (processAddOrUpdate cfg st "en.json" k v true "en").1
      "km.json" k v false "km").1 =
      (processAddOrUpdate cfg st "en.json" k v true "en").1 :=
    processAddOrUpdate_fst_nowrite cfg _ "km.json" k v "km" false hkm
  have hnd : NodupKeys (loadJSON st "en.json") := nodupKeys_loadJSON st "en.json"
  refine ⟨?_, ?_, ?_, ?_⟩
  · rw [syncLanguages_fst, processAddOrUpdate_other cfg _ "zh.json" k v "zh-CN"
      false "km.json" (by decide), h2fst,
      processAddOrUpdate_other cfg st "en.json" k v "en" true "km.json" (by decide)]
  · rw [syncLanguages_snd, h2fst]
    rw [processAddOrUpdate_english cfg st "en.json" k v "en"]
    rw [processAddOrUpdate_tr_ok cfg _ "km.json" k v "km" tkm htrkm]
    rw [processAddOrUpdate_tr_ok cfg _ "zh.json" k v "zh-CN" tzh htrzh]
    simp
  · rw [syncLanguages_fst, processAddOrUpdate_other cfg _ "zh.json" k v "zh-CN"
      false "en.json" (by decide), h2fst]
    rw [show (processAddOrUpdate cfg st "en.json" k v true "en").1 =
      (saveJSON cfg.wr st "en.json" (insertKey k v (loadJSON st "en.json"))).1
      from by rw [processAddOrUpdate_english]]
    rw [lookupKey_loadJSON_saveJSON cfg.wr st "en.json" _ hen
      (nodupKeys_insertKey k v _ hnd) k]
    exact lookupKey_insertKey_self k v _
  · rw [syncLanguages_fst, h2fst]
    rw [processAddOrUpdate_tr_ok cfg _ "zh.json" k v "zh-CN" tzh htrzh]
    rw [lookupKey_loadJSON_saveJSON cfg.wr _ "zh.json" _ hzh
      (nodupKeys_insertKey k tzh _ (nodupKeys_loadJSON _ "zh.json")) k]
    exact lookupKey_insertKey_self k tzh _

theorem persist_failure_silently_ignored_witness :
    kmFailConfig.wr "en.json" = true ∧ kmFailConfig.wr "zh.json" = true ∧
    kmFailConfig.wr "km.json" = false ∧
    kmFailConfig.tr "Hello" "km" = .ok "Hello" ∧
    kmFailConfig.tr "Hello" "zh-CN" = .ok "Hello" ∧
    lookupKey "greeting" (loadJSON [] "en.json") = none ∧
    (loadJSON (runAdd true kmFailConfig [] "greeting" "Hello").1 "km.json" =
        loadJSON [] "km.json" ∧
      (runAdd true kmFailConfig [] "greeting" "Hello").2 =
        ["✅ en.json: Hello", "✅ km.json: Hello", "✅ zh.json: Hello",
         "✨ i18n key added to all languages!"] ∧
      lookupKey "greeting"
        (loadJSON (runAdd true kmFailConfig [] "greeting" "Hello").1 "en.json") =
        some "Hello" ∧
      lookupKey "greeting"
        (loadJSON (runAdd true kmFailConfig [] "greeting" "Hello").1 "zh.json") =
        some "Hello") :=
  ⟨rfl, rfl, rfl, rfl, rfl, rfl,
   persist_failure_silently_ignored kmFailConfig [] "greeting" "Hello"
     "Hello" "Hello" rfl rfl rfl rfl rfl rfl⟩

/-- C3 counterexample.  When the base storage directory cannot be
created (`initBasePath` fails), the handler prints the error and returns
from a plain cobra `Run` function, so `rootCmd.Execute()` returns `nil`
and `main` never reaches `os.Exit(1)`: the process exits with status
zero, not the non-zero status the claim requires. -/
theorem setup_failure_exit_code_cex :
    (execCLI false allOkConfig CliCmd.add ["greeting", "Hello"] []).exitCode = 0 ∧
    (execCLI false allOkConfig CliCmd.add ["greeting", "Hello"] []).output =
      ["❌ Error: failed to create directory"] ∧
    (execCLI false allOkConfig CliCmd.add ["greeting", "Hello"] []).store = [] := by
  decide

/-- C3 (amended).  If the base storage directory cannot be created or
accessed, every command reports the error and aborts the operation (the
store is untouched) but the process exits with status zero; a non-zero
exit occurs only when the CLI framework rejects the argument count; and
domain-level outcomes such as an already-existing key likewise print a
message and exit zero. -/
theorem setup_failure_aborts_exit_zero (cfg : Config) (c : CliCmd)
    (args : List String) (st : Store) (k v : String)
    (hargs : argsOk c args = true)
    (hdup : (lookupKey k (loadJSON st "en.json")).isSome = true) :
    ((execCLI false cfg c args st).exitCode = 0 ∧
     (execCLI false cfg c args st).store = st ∧
     (execCLI false cfg c args st).output =
       ["❌ Error: failed to create directory"]) ∧
    (∀ (c2 : CliCmd) (args2 : List String) (su : Bool),
      argsOk c2 args2 = false → (execCLI su cfg c2 args2 st).exitCode = 1) ∧
    ((execCLI true cfg .add [k, v] st).exitCode = 0 ∧
     (execCLI true cfg .add [k, v] st).store = st) := by
  refine ⟨?_, ?_, ?_⟩
  · cases c <;>
      simp [execCLI, hargs, runAdd, runList, runUpdate, runRemove]
  · intro c2 args2 su h
    rw [execCLI.eq_def, if_pos h]
  · have hargs2 : argsOk CliCmd.add [k, v] = true := rfl
    obtain ⟨w, hw⟩ := Option.isSome_iff_exists.1 hdup
    constructor
    · simp [execCLI, hargs2, runAdd, hw]
    · simp [execCLI, hargs2, runAdd, hw]

theorem setup_failure_aborts_exit_zero_witness :
    argsOk CliCmd.list [] = true ∧
    (lookupKey "greeting" (loadJSON
        [("en.json", marshalFlat [("greeting", "Hello")])] "en.json")).isSome
      = true ∧
    (((execCLI false allOkConfig CliCmd.list []
        [("en.json", marshalFlat [("greeting", "Hello")])]).exitCode = 0 ∧
      (execCLI false allOkConfig CliCmd.list []
        [("en.json", marshalFlat [("greeting", "Hello")])]).store =
        [("en.json", marshalFlat [("greeting", "Hello")])] ∧
      (execCLI false allOkConfig CliCmd.list []
        [("en.json", marshalFlat [("greeting", "Hello")])]).output =
        ["❌ Error: failed to create directory"]) ∧
     (∀ (c2 : CliCmd) (args2 : List String) (su : Bool),
       argsOk c2 args2 = false →
       (execCLI su allOkConfig c2 args2
         [("en.json", marshalFlat [("greeting", "Hello")])]).exitCode = 1) ∧
     ((execCLI true allOkConfig .add ["greeting", "Hi"]
        [("en.json", marshalFlat [("greeting", "Hello")])]).exitCode = 0 ∧
      (execCLI true allOkConfig .add ["greeting", "Hi"]
        [("en.json", marshalFlat [("greeting", "Hello")])]).store =
        [("en.json", marshalFlat [("greeting", "Hello")])])) :=
  ⟨rfl, by decide,
   setup_failure_aborts_exit_zero allOkConfig CliCmd.list []
     [("en.json", marshalFlat [("greeting", "Hello")])] "greeting" "Hi"
     rfl (by decide)⟩
